import Mathlib

/-!
# Verification of the Vintage Story Recipe Designer discovery engine

A shallow embedding of `src/recipe_designer/main.py`: path discovery,
regex-based code extraction, variant-corpus construction, the wildcard
normalization state machine, symbol assignment and the JSON5 export.

Python strings are modelled as `List Char`; the scanners implement the
semantics of the specific regular expressions used by the source
(`re.finditer` left-to-right non-overlapping scanning, greedy/lazy
quantifiers resolved by hand for each concrete pattern, `\b` word
boundaries tracked via the previous character).  Scanning loops carry a
fuel argument; every loop iteration consumes at least one character, so
fuel equal to the input length (which is what every top-level wrapper
passes) never runs out.
-/

namespace RecipeDesigner

/-- `\w` for the ASCII-insensitive character classes `[a-z0-9_]` + `re.I`. -/
def isWordChar (c : Char) : Bool := c.isAlphanum || c == '_'

/-- Python `\s` / `str.strip()` whitespace (ASCII fragment). -/
def isWS (c : Char) : Bool := c == ' ' || c == '\t' || c == '\n' || c == '\r'

/-- Does the list contain the two-character substring `x y`? -/
def hasPair (x y : Char) : List Char → Bool
  | [] => false
  | [_] => false
  | a :: b :: r => (a == x && b == y) || hasPair x y (b :: r)

theorem hasPair_cons (x y c : Char) (l : List Char) :
    hasPair x y (c :: l) = (((c == x) && (l.head? == some y)) || hasPair x y l) := by
  cases l with
  | nil => simp [hasPair]
  | cons d r => rfl

theorem hasPair_append (x y : Char) (a b : List Char) :
    hasPair x y (a ++ b) =
      ((hasPair x y a || hasPair x y b) ||
        ((a.getLast? == some x) && (b.head? == some y))) := by
  induction a with
  | nil => simp [hasPair]
  | cons c a' ih =>
    rw [List.cons_append, hasPair_cons, ih, hasPair_cons]
    cases a' with
    | nil =>
      simp only [List.nil_append, List.getLast?_singleton, List.getLast?_nil, hasPair]
      cases hc : c == x <;> cases hh : b.head? == some y <;> simp [hc, hh]
    | cons d a'' =>
      simp only [List.head?_cons, List.getLast?_cons_cons]
      cases hc : c == x <;> cases hd : d == y <;>
        cases h1 : hasPair x y (d :: a'') <;> cases h2 : hasPair x y b <;>
        simp [hc, hd, h1, h2]

/-- Remove the trailing run of characters satisfying `p` (Python `str.rstrip`). -/
def dropTrailing (p : Char → Bool) : List Char → List Char
  | [] => []
  | c :: rest =>
    let r := dropTrailing p rest
    if r.isEmpty && p c then [] else c :: r

theorem dropTrailing_eq_append (p : Char → Bool) (l : List Char) :
    ∃ w, l = dropTrailing p l ++ w := by
  induction l with
  | nil => exact ⟨[], rfl⟩
  | cons c rest ih =>
    obtain ⟨w, hw⟩ := ih
    by_cases h : (dropTrailing p rest).isEmpty && p c
    · refine ⟨c :: rest, ?_⟩
      simp [dropTrailing, h]
    · refine ⟨w, ?_⟩
      simp only [dropTrailing, if_neg h, List.cons_append]
      rw [← hw]

theorem dropTrailing_getLast (p : Char → Bool) (l : List Char) (a : Char)
    (h : (dropTrailing p l).getLast? = some a) : p a = false := by
  induction l with
  | nil => simp [dropTrailing] at h
  | cons c rest ih =>
    by_cases hc : (dropTrailing p rest).isEmpty && p c
    · simp [dropTrailing, hc] at h
    · simp only [dropTrailing, if_neg hc] at h
      rcases he : dropTrailing p rest with _ | ⟨d, r⟩
      · rw [he] at h
        simp only [List.getLast?_singleton, Option.some.injEq] at h
        subst h
        rw [he] at hc
        simpa [List.isEmpty] using hc
      · rw [he] at h
        rw [List.getLast?_cons_cons] at h
        apply ih
        rw [he]
        exact h

/-- Python `str.strip()` (whitespace on both ends). -/
def pyStrip (l : List Char) : List Char := dropTrailing isWS (l.dropWhile isWS)

/-- `re.sub(r"\{[^}]+\}", "*", s)`: replace every brace-delimited segment
(nonempty, no inner `}`) by a single `*`, scanning left to right.  The fuel
argument only bounds the recursion; `braceSub` passes the input length,
which is always sufficient since each step consumes at least one
character. -/
def braceSubF : Nat → List Char → List Char
  | 0, l => l
  | _ + 1, [] => []
  | f + 1, c :: rest =>
    if c = '{' then
      if rest.takeWhile (fun d => d ≠ '}') ≠ [] ∧ rest.dropWhile (fun d => d ≠ '}') ≠ [] then
        '*' :: braceSubF f (rest.dropWhile (fun d => d ≠ '}')).tail
      else '{' :: braceSubF f rest
    else c :: braceSubF f rest

def braceSub (l : List Char) : List Char := braceSubF l.length l

/-- `re.sub(r"\*{2,}", "*", s)`: collapse every run of two or more `*`
into a single `*`. -/
def collapseStars : List Char → List Char
  | [] => []
  | a :: r =>
    match collapseStars r with
    | [] => [a]
    | b :: r' => if a = '*' && b = '*' then b :: r' else a :: b :: r'

/-- `_norm_pattern` from the source: brace segments to `*`, collapse star
runs, strip whitespace. -/
def normPattern (s : List Char) : List Char := pyStrip (collapseStars (braceSub s))

/-- `_with_domain` from the source. -/
def withDomain (code : List Char) : List Char :=
  if code.contains ':' then code else "game:".data ++ code

/-! ## Properties of the normalization pipeline -/

theorem contains_false_iff {α : Type} [BEq α] [LawfulBEq α] (l : List α) (a : α) :
    l.contains a = false ↔ a ∉ l := by
  simp [List.contains, List.elem_eq_mem]

theorem contains_true_iff {α : Type} [BEq α] [LawfulBEq α] (l : List α) (a : α) :
    l.contains a = true ↔ a ∈ l := by
  simp [List.contains, List.elem_eq_mem]

/-- An opening brace is "inert" if it is immediately closed (`{}`, which the
regex cannot match because the interior must be nonempty) or never closed. -/
def goodOpen (rest : List Char) : Bool := (rest.head? == some '}') || !(rest.contains '}')

/-- No position of the list starts a match of `\{[^}]+\}`. -/
def goodBraces : List Char → Bool
  | [] => true
  | c :: rest => (if c = '{' then goodOpen rest else true) && goodBraces rest

theorem goodBraces_cons (c : Char) (rest : List Char) :
    goodBraces (c :: rest) = ((if c = '{' then goodOpen rest else true) && goodBraces rest) := rfl

theorem goodBraces_append_right {a b : List Char} (h : goodBraces (a ++ b) = true) :
    goodBraces b = true := by
  induction a with
  | nil => exact h
  | cons c a' ih =>
    rw [List.cons_append, goodBraces, Bool.and_eq_true] at h
    exact ih h.2

theorem goodBraces_append_left {a b : List Char} (h : goodBraces (a ++ b) = true) :
    goodBraces a = true := by
  induction a with
  | nil => rfl
  | cons c a' ih =>
    rw [List.cons_append, goodBraces, Bool.and_eq_true] at h
    rw [goodBraces, Bool.and_eq_true]
    refine ⟨?_, ih h.2⟩
    split
    · rcases ha : a' with _ | ⟨d, a''⟩
      · simp [goodOpen]
      · have h1 := h.1
        rw [if_pos (by assumption)] at h1
        rw [ha, List.cons_append] at h1
        rw [goodOpen] at h1 ⊢
        rw [List.head?_cons] at h1 ⊢
        rcases Bool.or_eq_true_iff.mp h1 with h2 | h2
        · exact Bool.or_eq_true_iff.mpr (Or.inl h2)
        · refine Bool.or_eq_true_iff.mpr (Or.inr ?_)
          rw [Bool.not_eq_true'] at h2 ⊢
          rw [contains_false_iff] at h2 ⊢
          intro hmem
          exact h2 (by
            rcases List.mem_cons.mp hmem with h3 | h3
            · exact List.mem_cons.mpr (Or.inl h3)
            · exact List.mem_cons.mpr (Or.inr (List.mem_append_left _ h3)))
    · rfl

theorem mem_braceSubF {f : Nat} {l : List Char} {c : Char}
    (h : c ∈ braceSubF f l) : c ∈ l ∨ c = '*' := by
  induction f generalizing l with
  | zero => exact Or.inl h
  | succ f ih =>
    match l with
    | [] => exact Or.inl h
    | d :: rest =>
      rw [braceSubF] at h
      split at h
      case isTrue hd =>
        split at h
        case isTrue hcond =>
          rcases List.mem_cons.mp h with h1 | h1
          · exact Or.inr h1
          · rcases ih h1 with h2 | h2
            · refine Or.inl (List.mem_cons_of_mem _ ?_)
              have hs : List.Sublist (rest.dropWhile (fun d => d ≠ '}')).tail rest :=
                (List.tail_sublist _).trans (List.dropWhile_sublist _)
              exact hs.mem h2
            · exact Or.inr h2
        case isFalse hcond =>
          rcases List.mem_cons.mp h with h1 | h1
          · subst h1
            exact Or.inl (by rw [hd]; exact List.mem_cons_self _ _)
          · rcases ih h1 with h2 | h2
            · exact Or.inl (List.mem_cons_of_mem _ h2)
            · exact Or.inr h2
      case isFalse hd =>
        rcases List.mem_cons.mp h with h1 | h1
        · subst h1
          exact Or.inl (List.mem_cons_self _ _)
        · rcases ih h1 with h2 | h2
          · exact Or.inl (List.mem_cons_of_mem _ h2)
          · exact Or.inr h2

theorem goodBraces_braceSubF {f : Nat} {l : List Char} (hf : l.length ≤ f) :
    goodBraces (braceSubF f l) = true := by
  induction f generalizing l with
  | zero =>
    have : l = [] := List.length_eq_zero.mp (Nat.le_zero.mp hf)
    subst this
    rfl
  | succ f ih =>
    match l with
    | [] => rfl
    | c :: rest =>
      rw [braceSubF]
      have hrest : rest.length ≤ f := by
        simpa [Nat.succ_le_succ_iff] using hf
      split
      case isTrue hc =>
        split
        case isTrue hcond =>
          rw [goodBraces, Bool.and_eq_true]
          refine ⟨by rw [if_neg (by decide)], ih ?_⟩
          calc (rest.dropWhile (fun d => d ≠ '}')).tail.length
              ≤ (rest.dropWhile (fun d => d ≠ '}')).length := (List.tail_sublist _).length_le
            _ ≤ rest.length := (List.dropWhile_sublist _).length_le
            _ ≤ f := hrest
        case isFalse hcond =>
          rw [goodBraces, Bool.and_eq_true]
          refine ⟨?_, ih hrest⟩
          rw [if_pos rfl]
          rcases Decidable.not_and_iff_or_not.mp hcond with h1 | h1
          · rw [Decidable.not_not] at h1
            rcases hr : rest with _ | ⟨d, rr⟩
            · have hnil : braceSubF f ([] : List Char) = [] := by cases f <;> rfl
              rw [hnil]
              rfl
            · rw [hr] at h1
              have hd : d = '}' := by
                by_cases hdd : d = '}'
                · exact hdd
                · exfalso
                  rw [List.takeWhile_cons, if_pos (by simpa using hdd)] at h1
                  simp at h1
              subst hd
              have hbr : ∃ t, braceSubF f ('}' :: rr) = '}' :: t := by
                cases f with
                | zero => exact ⟨rr, rfl⟩
                | succ g =>
                  rw [braceSubF, if_neg (by decide)]
                  exact ⟨_, rfl⟩
              obtain ⟨t, ht⟩ := hbr
              rw [ht, goodOpen, List.head?_cons]
              simp
          · rw [Decidable.not_not] at h1
            have hnomem : '}' ∉ rest := by
              intro hmem
              have := List.dropWhile_eq_nil_iff.mp h1
              have h2 := this '}' hmem
              simp at h2
            rw [goodOpen]
            refine Bool.or_eq_true_iff.mpr (Or.inr ?_)
            rw [Bool.not_eq_true', contains_false_iff]
            intro hmem
            rcases mem_braceSubF hmem with h2 | h2
            · exact hnomem h2
            · simp at h2
      case isFalse hc =>
        rw [goodBraces, Bool.and_eq_true]
        exact ⟨by simp [hc], ih hrest⟩

theorem braceSubF_of_goodBraces {l : List Char} (h : goodBraces l = true) (f : Nat) :
    braceSubF f l = l := by
  induction f generalizing l with
  | zero => rfl
  | succ f ih =>
    match l with
    | [] => rfl
    | c :: rest =>
      rw [goodBraces, Bool.and_eq_true] at h
      rw [braceSubF]
      split
      case isTrue hc =>
        have hopen : goodOpen rest = true := by
          have := h.1
          rwa [if_pos hc] at this
        rw [if_neg ?_]
        · rw [ih h.2, hc]
        · rintro ⟨hrun, hdrop⟩
          rw [goodOpen, Bool.or_eq_true_iff] at hopen
          rcases hopen with h1 | h1
          · rcases hr : rest with _ | ⟨d, rr⟩
            · rw [hr] at hrun
              exact hrun rfl
            · rw [hr, List.head?_cons] at h1
              have hd : d = '}' := by simpa using h1
              apply hrun
              rw [hr, hd, List.takeWhile_cons, if_neg (by simp)]
          · have hnomem : '}' ∉ rest := by
              rw [Bool.not_eq_true', contains_false_iff] at h1
              exact h1
            apply hdrop
            rw [List.dropWhile_eq_nil_iff]
            intro x hx
            have hne : x ≠ '}' := fun hxx => hnomem (hxx ▸ hx)
            simp [hne]
      case isFalse hc =>
        rw [ih h.2]

theorem collapseStars_cons (a : Char) (r : List Char) :
    collapseStars (a :: r) =
      (match collapseStars r with
        | [] => [a]
        | b :: r' => if a = '*' && b = '*' then b :: r' else a :: b :: r') := rfl

theorem collapseStars_cons_nil {a : Char} {r : List Char} (hc : collapseStars r = []) :
    collapseStars (a :: r) = [a] := by
  rw [collapseStars_cons, hc]

theorem collapseStars_cons_cons {a b : Char} {r r' : List Char}
    (hc : collapseStars r = b :: r') :
    collapseStars (a :: r) =
      if (decide (a = '*') && decide (b = '*')) = true then b :: r' else a :: b :: r' := by
  rw [collapseStars_cons, hc]

theorem collapseStars_sublist (l : List Char) : List.Sublist (collapseStars l) l := by
  induction l with
  | nil => exact List.Sublist.refl _
  | cons a r ih =>
    rcases hc : collapseStars r with _ | ⟨b, r'⟩
    · rw [collapseStars_cons_nil hc]
      exact (List.nil_sublist r).cons₂ a
    · rw [hc] at ih
      rw [collapseStars_cons_cons hc]
      by_cases hab : (decide (a = '*') && decide (b = '*')) = true
      · rw [if_pos hab]
        exact ih.trans (List.sublist_cons_self _ _)
      · rw [if_neg hab]
        exact ih.cons₂ a

theorem collapseStars_head? (l : List Char) : (collapseStars l).head? = l.head? := by
  induction l with
  | nil => rfl
  | cons a r ih =>
    rcases hc : collapseStars r with _ | ⟨b, r'⟩
    · rw [collapseStars_cons_nil hc]
      rfl
    · rw [collapseStars_cons_cons hc]
      by_cases hab : (decide (a = '*') && decide (b = '*')) = true
      · rw [if_pos hab]
        rw [List.head?_cons, List.head?_cons]
        rcases Bool.and_eq_true_iff.mp hab with ⟨ha, hb⟩
        have ha' : a = '*' := by simpa using ha
        have hb' : b = '*' := by simpa using hb
        rw [ha', hb']
      · rw [if_neg hab]
        rfl

theorem hasPair_star_collapseStars (l : List Char) :
    hasPair '*' '*' (collapseStars l) = false := by
  induction l with
  | nil => rfl
  | cons a r ih =>
    rcases hc : collapseStars r with _ | ⟨b, r'⟩
    · rw [collapseStars_cons_nil hc]
      rfl
    · rw [hc] at ih
      rw [collapseStars_cons_cons hc]
      by_cases hab : (decide (a = '*') && decide (b = '*')) = true
      · rw [if_pos hab]
        exact ih
      · rw [if_neg hab]
        rw [hasPair_cons, Bool.or_eq_false_iff]
        refine ⟨?_, ih⟩
        rw [List.head?_cons]
        by_cases ha : a = '*'
        · by_cases hb : b = '*'
          · exact absurd (by simp [ha, hb]) hab
          · simp [hb]
        · simp [ha]

theorem collapseStars_of_no_pair {l : List Char} (h : hasPair '*' '*' l = false) :
    collapseStars l = l := by
  induction l with
  | nil => rfl
  | cons a r ih =>
    have hr : hasPair '*' '*' r = false := by
      rw [hasPair_cons, Bool.or_eq_false_iff] at h
      exact h.2
    rcases r with _ | ⟨b, r'⟩
    · rw [collapseStars_cons_nil (show collapseStars [] = [] from rfl)]
    · have hcol : collapseStars (b :: r') = b :: r' := ih hr
      rw [collapseStars_cons_cons hcol, if_neg ?_]
      rw [hasPair_cons, Bool.or_eq_false_iff] at h
      have h1 := h.1
      rw [List.head?_cons] at h1
      intro hab
      rcases Bool.and_eq_true_iff.mp hab with ⟨ha, hb⟩
      have ha' : a = '*' := by simpa using ha
      have hb' : b = '*' := by simpa using hb
      rw [ha', hb'] at h1
      simp at h1

theorem goodBraces_collapseStars {l : List Char} (h : goodBraces l = true) :
    goodBraces (collapseStars l) = true := by
  induction l with
  | nil => rfl
  | cons a r ih =>
    rw [goodBraces_cons, Bool.and_eq_true] at h
    have ihr := ih h.2
    rcases hc : collapseStars r with _ | ⟨b, r'⟩
    · rw [collapseStars_cons_nil hc]
      rw [goodBraces_cons, Bool.and_eq_true]
      refine ⟨?_, rfl⟩
      split
      · simp [goodOpen]
      · rfl
    · rw [hc] at ihr
      rw [collapseStars_cons_cons hc]
      by_cases hab : (decide (a = '*') && decide (b = '*')) = true
      · rw [if_pos hab]
        exact ihr
      · rw [if_neg hab]
        rw [goodBraces_cons, Bool.and_eq_true]
        refine ⟨?_, ihr⟩
        split
        · rename_i ha
          have hopen : goodOpen r = true := by
            have := h.1
            rwa [if_pos ha] at this
          rw [goodOpen, Bool.or_eq_true_iff] at hopen ⊢
          rcases hopen with h1 | h1
          · left
            have : r.head? = some '}' := by simpa using h1
            have hh : (b :: r').head? = some '}' := by
              rw [← hc, collapseStars_head?, this]
            simpa using hh
          · right
            rw [Bool.not_eq_true', contains_false_iff] at h1 ⊢
            intro hmem
            exact h1 ((hc ▸ collapseStars_sublist r).mem hmem)
        · rfl

/-! ### Strip properties -/

theorem goodBraces_dropWhile (p : Char → Bool) {l : List Char}
    (h : goodBraces l = true) : goodBraces (l.dropWhile p) = true := by
  apply goodBraces_append_right (a := l.takeWhile p)
  rwa [List.takeWhile_append_dropWhile]

theorem goodBraces_dropTrailing (p : Char → Bool) {l : List Char}
    (h : goodBraces l = true) : goodBraces (dropTrailing p l) = true := by
  obtain ⟨w, hw⟩ := dropTrailing_eq_append p l
  exact goodBraces_append_left (hw ▸ h)

theorem goodBraces_pyStrip {l : List Char} (h : goodBraces l = true) :
    goodBraces (pyStrip l) = true :=
  goodBraces_dropTrailing _ (goodBraces_dropWhile _ h)

theorem hasPair_dropWhile (x y : Char) (p : Char → Bool) {l : List Char}
    (h : hasPair x y l = false) : hasPair x y (l.dropWhile p) = false := by
  have h2 : hasPair x y (l.takeWhile p ++ l.dropWhile p) = false := by
    rw [List.takeWhile_append_dropWhile]
    exact h
  rw [hasPair_append] at h2
  rcases Bool.or_eq_false_iff.mp h2 with ⟨h1, _⟩
  exact (Bool.or_eq_false_iff.mp h1).2

theorem hasPair_dropTrailing (x y : Char) (p : Char → Bool) {l : List Char}
    (h : hasPair x y l = false) : hasPair x y (dropTrailing p l) = false := by
  obtain ⟨w, hw⟩ := dropTrailing_eq_append p l
  rw [hw, hasPair_append] at h
  rcases Bool.or_eq_false_iff.mp h with ⟨h1, _⟩
  exact (Bool.or_eq_false_iff.mp h1).1

theorem hasPair_pyStrip (x y : Char) {l : List Char} (h : hasPair x y l = false) :
    hasPair x y (pyStrip l) = false :=
  hasPair_dropTrailing x y _ (hasPair_dropWhile x y _ h)

theorem dropTrailing_idem (p : Char → Bool) (l : List Char) :
    dropTrailing p (dropTrailing p l) = dropTrailing p l := by
  induction l with
  | nil => rfl
  | cons c rest ih =>
    by_cases h : (dropTrailing p rest).isEmpty && p c
    · simp [dropTrailing, h]
    · rw [dropTrailing]
      simp only [if_neg h]
      rw [dropTrailing, ih]
      rw [if_neg h]

theorem dropTrailing_head? (p : Char → Bool) (l : List Char) :
    dropTrailing p l = [] ∨ (dropTrailing p l).head? = l.head? := by
  cases l with
  | nil => exact Or.inl rfl
  | cons c rest =>
    by_cases h : (dropTrailing p rest).isEmpty && p c
    · exact Or.inl (by simp [dropTrailing, h])
    · right
      rw [dropTrailing]
      simp only [if_neg h]
      rfl

theorem pyStrip_idem (l : List Char) : pyStrip (pyStrip l) = pyStrip l := by
  rw [pyStrip, pyStrip]
  have hdw : (dropTrailing isWS (l.dropWhile isWS)).dropWhile isWS
      = dropTrailing isWS (l.dropWhile isWS) := by
    rcases dropTrailing_head? isWS (l.dropWhile isWS) with h | h
    · rw [h]
      rfl
    · rcases he : dropTrailing isWS (l.dropWhile isWS) with _ | ⟨c, r⟩
      · rfl
      · rw [he, List.head?_cons] at h
        have hc : (l.dropWhile isWS).head? = some c := h.symm
        have hpc : isWS c = false := by
          have := List.head?_dropWhile_not isWS l
          rw [hc] at this
          simpa using this
        rw [List.dropWhile_cons, if_neg (by simp [hpc])]
  rw [hdw, dropTrailing_idem]

/-! ### The star invariant of `_norm_pattern` and the idempotence theorem -/

theorem normPattern_no_star_pair (s : List Char) :
    hasPair '*' '*' (normPattern s) = false := by
  rw [normPattern]
  exact hasPair_pyStrip _ _ (hasPair_star_collapseStars _)

theorem goodBraces_normPattern (s : List Char) : goodBraces (normPattern s) = true := by
  rw [normPattern]
  exact goodBraces_pyStrip (goodBraces_collapseStars (goodBraces_braceSubF (Nat.le_refl _)))

theorem normPattern_idem (s : List Char) : normPattern (normPattern s) = normPattern s := by
  conv_lhs => rw [normPattern]
  rw [braceSub, braceSubF_of_goodBraces (goodBraces_normPattern s)]
  rw [collapseStars_of_no_pair (normPattern_no_star_pair s)]
  exact pyStrip_idem _

/-! ## The code extractor (`_discover_codes_in_text`)

Each of the four extraction rules of the source is a `re.finditer` pass.
A *matcher* tries the regex at one fixed position and returns the captured
value together with the rest of the input after the match; the generic
loop `scanKw` implements `finditer`: leftmost matches, attempted only at
`\b` word-boundary positions (all four patterns start with a word
character), non-overlapping, resuming after each match end. -/

/-- Match a literal keyword at the start of the input. -/
def peel : List Char → List Char → Option (List Char)
  | [], l => some l
  | _ :: _, [] => none
  | p :: ps, c :: cs => if c = p then peel ps cs else none

/-- `(?:"([^"]+)"|\'([^\']+)\')` tried at the start of the input: a
double-quoted (preferred alternative) or single-quoted nonempty literal. -/
def matchQuoted : List Char → Option (List Char × List Char)
  | '"' :: r =>
    match r.dropWhile (fun d => d ≠ '"') with
    | '"' :: r'' =>
      if r.takeWhile (fun d => d ≠ '"') = [] then none
      else some (r.takeWhile (fun d => d ≠ '"'), r'')
    | _ => none
  | '\'' :: r =>
    match r.dropWhile (fun d => d ≠ '\'') with
    | '\'' :: r'' =>
      if r.takeWhile (fun d => d ≠ '\'') = [] then none
      else some (r.takeWhile (fun d => d ≠ '\''), r'')
    | _ => none
  | _ => none

/-- Rule 1 matcher: `code\s*:\s*` followed by a quoted literal. -/
def matchRule1 (l : List Char) : Option (List Char × List Char) :=
  match peel "code".data l with
  | none => none
  | some r =>
    match r.dropWhile isWS with
    | ':' :: r2 => matchQuoted (r2.dropWhile isWS)
    | _ => none

/-- `path\s*:\s*` followed by a quoted literal. -/
def matchPath (l : List Char) : Option (List Char × List Char) :=
  match peel "path".data l with
  | none => none
  | some r =>
    match r.dropWhile isWS with
    | ':' :: r2 => matchQuoted (r2.dropWhile isWS)
    | _ => none

/-- The lazy `[^{}]*?\bpath\s*:\s*STR` search inside rule 2: extend the
non-brace run one character at a time, trying `\bpath…` at each point. -/
def findPathIn : Bool → List Char → Option (List Char × List Char)
  | _, [] => none
  | pw, c :: rest =>
    if c = '{' || c = '}' then none
    else
      match (if pw then none else matchPath (c :: rest)) with
      | some res => some res
      | none => findPathIn (isWordChar c) rest

/-- Rule 2 matcher: `code\s*:\s*\{[^{}]*?\bpath\s*:\s*STR` (DOTALL). -/
def matchRule2 (l : List Char) : Option (List Char × List Char) :=
  match peel "code".data l with
  | none => none
  | some r =>
    match r.dropWhile isWS with
    | ':' :: r2 =>
      match r2.dropWhile isWS with
      | '{' :: r3 => findPathIn false r3
      | _ => none
    | _ => none

/-- Rules 3/4 matcher: `kw\s*:\s*\[(.*?)\]` (DOTALL); returns the bracket
body (the lazy `(.*?)` stops at the first `]`). -/
def matchListRule (kw : List Char) (l : List Char) : Option (List Char × List Char) :=
  match peel kw l with
  | none => none
  | some r =>
    match r.dropWhile isWS with
    | ':' :: r2 =>
      match r2.dropWhile isWS with
      | '[' :: r3 =>
        match r3.dropWhile (fun d => d ≠ ']') with
        | ']' :: r5 => some (r3.takeWhile (fun d => d ≠ ']'), r5)
        | _ => none
      | _ => none
    | _ => none

/-- Corpus matcher `\b([a-z0-9_]+):([a-z0-9_]+)-([a-z0-9_]+)\b` (re.I):
three maximal word runs separated by `:` and `-`. -/
def matchDom (l : List Char) : Option ((List Char × List Char × List Char) × List Char) :=
  if l.takeWhile isWordChar = [] then none
  else
    match (l.dropWhile isWordChar) with
    | ':' :: r2 =>
      if r2.takeWhile isWordChar = [] then none
      else
        match (r2.dropWhile isWordChar) with
        | '-' :: r4 =>
          if r4.takeWhile isWordChar = [] then none
          else
            some ((l.takeWhile isWordChar, r2.takeWhile isWordChar, r4.takeWhile isWordChar),
              r4.dropWhile isWordChar)
        | _ => none
    | _ => none

/-- Corpus matcher `\b([a-z0-9_]+)-([a-z0-9_]+)\b` (re.I). -/
def matchNodom (l : List Char) : Option ((List Char × List Char) × List Char) :=
  if l.takeWhile isWordChar = [] then none
  else
    match (l.dropWhile isWordChar) with
    | '-' :: r2 =>
      if r2.takeWhile isWordChar = [] then none
      else some ((l.takeWhile isWordChar, r2.takeWhile isWordChar), r2.dropWhile isWordChar)
    | _ => none

/-- The `re.finditer` loop: try the matcher `m` at every position that is a
`\b` boundary (previous character not a word character, tracked by `pw`),
emit the captured value and resume after the match; `pwA` tells whether the
last character of a successful match is a word character.  The fuel is
always instantiated with the input length, which suffices because every
iteration consumes at least one character. -/
def scanKw {α : Type} (m : List Char → Option (α × List Char)) (pwA : Bool) :
    Nat → Bool → List Char → List α
  | 0, _, _ => []
  | _ + 1, _, [] => []
  | f + 1, pw, c :: rest =>
    match (if pw then none else m (c :: rest)) with
    | some (v, r) => v :: scanKw m pwA f pwA r
    | none => scanKw m pwA f (isWordChar c) rest

/-- `re.finditer(_STR_RE, body)`: quoted literals with no keyword context. -/
def scanStrs : Nat → List Char → List (List Char)
  | 0, _ => []
  | _ + 1, [] => []
  | f + 1, c :: rest =>
    match matchQuoted (c :: rest) with
    | some (v, r) => v :: scanStrs f r
    | none => scanStrs f rest

def rule1Vals (t : List Char) : List (List Char) := scanKw matchRule1 false t.length false t

def rule2Vals (t : List Char) : List (List Char) := scanKw matchRule2 false t.length false t

def rule3Vals (t : List Char) : List (List Char) :=
  (scanKw (matchListRule "allowedVariants".data) false t.length false t).flatMap
    (fun body => scanStrs body.length body)

def rule4Vals (t : List Char) : List (List Char) :=
  (scanKw (matchListRule "groupBy".data) false t.length false t).flatMap
    (fun body => scanStrs body.length body)

/-- `_discover_codes_in_text`; the Python `set` is modelled as the list of
added elements (claims are stated via membership). -/
def discoverCodesInText (text : List Char) : List (List Char) :=
  (rule1Vals text).flatMap (fun v =>
    if v = [] then []
    else
      withDomain (normPattern v) ::
        (if (withDomain (normPattern v)).getLast? ≠ some '*' ∧
            hasPair '-' '*' (withDomain (normPattern v)) = false then
          [withDomain (normPattern v) ++ ['-', '*']]
        else []))
  ++ (rule2Vals text).flatMap (fun v =>
      if v = [] then [] else [withDomain (normPattern v)])
  ++ (rule3Vals text).flatMap (fun v =>
      if v = [] then [] else [withDomain (normPattern v)])
  ++ (rule4Vals text).flatMap (fun v =>
      if v = [] then [] else [withDomain (normPattern v)])

/-! ### The shape of every extracted pattern -/

theorem withDomain_no_star_pair {x : List Char} (h : hasPair '*' '*' x = false) :
    hasPair '*' '*' (withDomain x) = false := by
  rw [withDomain]
  split
  · exact h
  · rw [hasPair_append, h]
    simp [hasPair]

theorem sibling_no_star_pair {x : List Char} (h : hasPair '*' '*' x = false) :
    hasPair '*' '*' (x ++ ['-', '*']) = false := by
  rw [hasPair_append, h]
  simp [hasPair]

theorem mem_discoverCodesInText {text p : List Char} (h : p ∈ discoverCodesInText text) :
    (∃ v, p = withDomain (normPattern v)) ∨
      (∃ v, p = withDomain (normPattern v) ++ ['-', '*']) := by
  rw [discoverCodesInText] at h
  rcases List.mem_append.mp h with h1 | h1
  · rcases List.mem_append.mp h1 with h2 | h2
    · rcases List.mem_append.mp h2 with h3 | h3
      · rcases List.mem_flatMap.mp h3 with ⟨v, _, hv⟩
        split at hv
        · simp at hv
        · rcases List.mem_cons.mp hv with h4 | h4
          · exact Or.inl ⟨v, h4⟩
          · split at h4
            · rcases List.mem_singleton.mp h4 with h5
              exact Or.inr ⟨v, h5⟩
            · simp at h4
      · rcases List.mem_flatMap.mp h3 with ⟨v, _, hv⟩
        split at hv
        · simp at hv
        · exact Or.inl ⟨v, List.mem_singleton.mp hv⟩
    · rcases List.mem_flatMap.mp h2 with ⟨v, _, hv⟩
      split at hv
      · simp at hv
      · exact Or.inl ⟨v, List.mem_singleton.mp hv⟩
  · rcases List.mem_flatMap.mp h1 with ⟨v, _, hv⟩
    split at hv
    · simp at hv
    · exact Or.inl ⟨v, List.mem_singleton.mp hv⟩


/-! ## Path discovery (`_candidate_list_from_root`, `resolve_survival_dir`)

Filesystem paths are modelled as lists of components; `os.path.join`
appends components and `os.path.dirname` drops the last one.  The
`os.path.abspath`/`expanduser`/`expandvars` expansion is modelled as the
identity: roots are taken already expanded and absolute (the claims under
study are about the candidate structure, not about environment
expansion).  `_validate_survival_dir` probes the filesystem, so it is an
abstract boolean predicate parameter.  The ordered diagnostic log is not
modelled. -/

abbrev PathC := List String

/-- `_candidate_list_from_root`. -/
def candidate_list_from_root (root : PathC) : List PathC :=
  [root ++ ["assets", "survival"],
   root ++ ["Vintagestory", "assets", "survival"],
   root.dropLast ++ ["Vintagestory", "assets", "survival"],
   root]

/-- The `for cand: … if ok: return cand` loop of the source. -/
def firstValid (valid : PathC → Bool) : List PathC → Option PathC
  | [] => none
  | c :: rest => if valid c then some c else firstValid valid rest

/-- `resolve_survival_dir` (environment modelled as a lookup function,
logs omitted). -/
def resolve_survival_dir (env : String → Option PathC) (env_key : Option String)
    (direct_root : Option PathC) (valid : PathC → Bool) : Option PathC :=
  let tryEnv : Option PathC :=
    match env_key with
    | none => none
    | some k =>
      match env k with
      | none => none
      | some v => firstValid valid (candidate_list_from_root v)
  match direct_root with
  | none => tryEnv
  | some root =>
    match firstValid valid (candidate_list_from_root root) with
    | some c => some c
    | none => tryEnv

/-- `discover_game_codes`: the tree walk is modelled by `filesOf`, giving
the texts of the `.json`/`.json5` files under the two definition
subdirectories of the resolved root, in walk order (unreadable files are
skipped by the source and therefore absent).  The `sorted(set(...))` of
the source is modelled as the list of discovered codes. -/
def discover_game_codes (env : String → Option PathC) (env_key : Option String)
    (direct_root : Option PathC) (valid : PathC → Bool)
    (filesOf : PathC → List (List Char)) : List (List Char) × Option PathC :=
  match resolve_survival_dir env env_key direct_root valid with
  | none => ([], none)
  | some survival => ((filesOf survival).flatMap discoverCodesInText, some survival)

theorem firstValid_append_of_none {valid : PathC → Bool} {pre : List PathC}
    (hpre : ∀ p ∈ pre, valid p = false) (c : PathC) (post : List PathC)
    (hc : valid c = true) :
    firstValid valid (pre ++ c :: post) = some c := by
  induction pre with
  | nil =>
    rw [List.nil_append, firstValid, if_pos hc]
  | cons q pre ih =>
    rw [List.cons_append, firstValid, if_neg ?_]
    · exact ih fun p hp => hpre p (List.mem_cons_of_mem _ hp)
    · rw [hpre q (List.mem_cons_self _ _)]
      simp

/-! ## Ingredients and the wildcard normalization state machine -/

/-- The `Ingredient` class of the source (field by field). -/
structure Ingredient where
  code : List Char
  quantity : Nat
  is_tool : Bool
  tool_cost : Nat
  symbol : Option Char
  name : List Char
  allowed_variants : List (List Char)
deriving DecidableEq, Repr

/-- `_normalize_wildcard_code`: when the code ends in `*`, drop that star,
strip trailing dashes, then re-append `-*` (variants selected) or `*`. -/
def normalizeWildcardCode (ing : Ingredient) : Ingredient :=
  if ing.code.getLast? = some '*' then
    { ing with code :=
        dropTrailing (fun c => c == '-') ing.code.dropLast ++
          (if ing.allowed_variants ≠ [] then ['-', '*'] else ['*']) }
  else ing

/-- The code/variants mutation of `_side_apply` (the wildcard checkbox
handler): `wildcard` is the state of the "Allow variants (*)" toggle. -/
def sideApplyCode (wildcard : Bool) (ing : Ingredient) : Ingredient :=
  if ing.code = [] then ing
  else if wildcard then
    normalizeWildcardCode
      (if ing.code.getLast? = some '*' then ing
       else { ing with code := ing.code ++ ['*'] })
  else
    { (if ing.code.getLast? = some '*' then { ing with code := ing.code.dropLast } else ing)
        with allowed_variants := [] }

/-- The `ok` handler of the variants dialog: store the chosen variant set,
then (when the wildcard toggle is on) ensure a trailing star and
normalize. -/
def setVariants (wildcard : Bool) (vs : List (List Char)) (ing : Ingredient) : Ingredient :=
  let ing1 := { ing with allowed_variants := vs }
  if wildcard then
    normalizeWildcardCode
      (if ing1.code.getLast? = some '*' then ing1
       else { ing1 with code := ing1.code ++ ['*'] })
  else ing1

/-- `_update_variants_summary` when none of the stored variants is still
offered: clear the set and re-normalize. -/
def summaryReset (ing : Ingredient) : Ingredient :=
  normalizeWildcardCode { ing with allowed_variants := [] }

/-- One user-level wildcard/variant mutation. -/
inductive SlotOp where
  | sideApply (wildcard : Bool)
  | setVars (wildcard : Bool) (vs : List (List Char))
  | reset
deriving DecidableEq, Repr

def applyOp : SlotOp → Ingredient → Ingredient
  | SlotOp.sideApply w, ing => sideApplyCode w ing
  | SlotOp.setVars w vs, ing => setVariants w vs ing
  | SlotOp.reset, ing => summaryReset ing

def applyOps (ops : List SlotOp) (ing : Ingredient) : Ingredient :=
  ops.foldl (fun i op => applyOp op i) ing

/-! ### The invariant preserved by the wildcard state machine -/

/-- The invariant: no double dash anywhere, and any `*` sits at the very
last position. -/
def CodeInv (c : List Char) : Prop := hasPair '-' '-' c = false ∧ '*' ∉ c.dropLast

theorem hasPair_prefix {x y : Char} {a b : List Char}
    (h : hasPair x y (a ++ b) = false) : hasPair x y a = false := by
  rw [hasPair_append] at h
  rcases Bool.or_eq_false_iff.mp h with ⟨h1, _⟩
  exact (Bool.or_eq_false_iff.mp h1).1

theorem hasPair_mem_dropLast {x y : Char} {l : List Char}
    (h : hasPair x y l = true) : x ∈ l.dropLast := by
  induction l with
  | nil => simp [hasPair] at h
  | cons a r ih =>
    cases r with
    | nil => simp [hasPair] at h
    | cons b r' =>
      rw [show hasPair x y (a :: b :: r') =
          (((a == x) && (b == y)) || hasPair x y (b :: r')) from rfl] at h
      rw [List.dropLast_cons₂]
      rcases Bool.or_eq_true_iff.mp h with h1 | h1
      · have : a = x := by simpa using (Bool.and_eq_true_iff.mp h1).1
        rw [this]
        exact List.mem_cons_self _ _
      · exact List.mem_cons_of_mem _ (ih h1)

theorem CodeInv.no_star_pair {c : List Char} (h : CodeInv c) :
    hasPair '*' '*' c = false := by
  by_contra hb
  exact h.2 (hasPair_mem_dropLast (Bool.of_not_eq_false hb))

/-- `_normalize_wildcard_code` preserves the invariant on wildcarded codes. -/
theorem codeInv_normalize {ing : Ingredient} (h : CodeInv ing.code) :
    CodeInv (normalizeWildcardCode ing).code := by
  rw [normalizeWildcardCode]
  split
  case isFalse => exact h
  case isTrue hstar =>
    have hne : ing.code ≠ [] := by
      intro hnil
      rw [hnil] at hstar
      simp at hstar
    have hsplit : ing.code.dropLast ++ [ing.code.getLast hne] = ing.code :=
      List.dropLast_concat_getLast hne
    have hdashDL : hasPair '-' '-' ing.code.dropLast = false := by
      apply hasPair_prefix (b := [ing.code.getLast hne])
      rw [hsplit]
      exact h.1
    obtain ⟨w, hw⟩ := dropTrailing_eq_append (fun c => c == '-') ing.code.dropLast
    have hdashBase : hasPair '-' '-' (dropTrailing (fun c => c == '-') ing.code.dropLast)
        = false := by
      apply hasPair_prefix (b := w)
      rw [← hw]
      exact hdashDL
    have hstarBase : '*' ∉ dropTrailing (fun c => c == '-') ing.code.dropLast := by
      intro hmem
      apply h.2
      rw [hw]
      exact List.mem_append_left _ hmem
    have hlastBase : ¬ ((dropTrailing (fun c => c == '-') ing.code.dropLast).getLast?
        = some '-') := by
      intro hl
      have := dropTrailing_getLast _ _ _ hl
      simp at this
    constructor
    · split
      · rw [hasPair_append, hdashBase]
        simp only [Bool.false_or]
        rw [Bool.or_eq_false_iff]
        refine ⟨rfl, ?_⟩
        rw [Bool.and_eq_false_iff]
        left
        rw [beq_eq_false_iff_ne]
        exact hlastBase
      · rw [hasPair_append, hdashBase]
        simp [hasPair]
    · split
      · rw [show dropTrailing (fun c => c == '-') ing.code.dropLast ++ ['-', '*'] =
          (dropTrailing (fun c => c == '-') ing.code.dropLast ++ ['-']) ++ ['*'] by simp]
        rw [List.dropLast_concat]
        intro hmem
        rcases List.mem_append.mp hmem with h1 | h1
        · exact hstarBase h1
        · simp at h1
      · rw [List.dropLast_concat]
        exact hstarBase

theorem codeInv_applyOp (op : SlotOp) {ing : Ingredient} (h : CodeInv ing.code) :
    CodeInv (applyOp op ing).code := by
  cases op with
  | sideApply w =>
    rw [applyOp, sideApplyCode]
    split
    case isTrue => exact h
    case isFalse hne =>
      split
      case isTrue =>
        apply codeInv_normalize
        split
        case isTrue => exact h
        case isFalse hstar =>
          have hsplit : ing.code.dropLast ++ [ing.code.getLast hne] = ing.code :=
            List.dropLast_concat_getLast hne
          have hlast : ing.code.getLast hne ≠ '*' := by
            intro heq
            apply hstar
            rw [← hsplit, heq]
            simp
          constructor
          · show hasPair '-' '-' (ing.code ++ ['*']) = false
            rw [hasPair_append, h.1]
            simp [hasPair]
          · show '*' ∉ (ing.code ++ ['*']).dropLast
            rw [List.dropLast_concat]
            intro hmem
            rw [← hsplit] at hmem
            rcases List.mem_append.mp hmem with h1 | h1
            · exact h.2 h1
            · exact hlast (Eq.symm (by simpa using h1))
      case isFalse =>
        split
        case isTrue hstar =>
          constructor
          · show hasPair '-' '-' ing.code.dropLast = false
            rcases hn : ing.code with _ | _
            · simp [hasPair]
            · rw [← hn]
              apply hasPair_prefix (b := [ing.code.getLast (by rw [hn]; simp)])
              rw [List.dropLast_concat_getLast]
              exact h.1
          · show '*' ∉ ing.code.dropLast.dropLast
            intro hmem
            exact h.2 ((List.dropLast_sublist _).mem hmem)
        case isFalse => exact h
  | setVars w vs =>
    rw [applyOp, setVariants]
    split
    case isTrue =>
      apply codeInv_normalize
      split
      case isTrue => exact h
      case isFalse hstar =>
        rcases hn : ing.code with _ | ⟨c0, cr⟩
        · constructor
          · simp [hasPair]
          · simp
        · rw [← hn]
          have hne : ing.code ≠ [] := by rw [hn]; simp
          have hsplit : ing.code.dropLast ++ [ing.code.getLast hne] = ing.code :=
            List.dropLast_concat_getLast hne
          have hlast : ing.code.getLast hne ≠ '*' := by
            intro heq
            apply hstar
            rw [← hsplit, heq]
            simp
          constructor
          · show hasPair '-' '-' (ing.code ++ ['*']) = false
            rw [hasPair_append, h.1]
            simp [hasPair]
          · show '*' ∉ (ing.code ++ ['*']).dropLast
            rw [List.dropLast_concat]
            intro hmem
            rw [← hsplit] at hmem
            rcases List.mem_append.mp hmem with h1 | h1
            · exact h.2 h1
            · exact hlast (Eq.symm (by simpa using h1))
    case isFalse => exact h
  | reset =>
    rw [applyOp, summaryReset]
    exact codeInv_normalize h

theorem codeInv_applyOps (ops : List SlotOp) {ing : Ingredient} (h : CodeInv ing.code) :
    CodeInv (applyOps ops ing).code := by
  induction ops generalizing ing with
  | nil => exact h
  | cons op ops ih =>
    rw [applyOps, List.foldl_cons]
    exact ih (codeInv_applyOp op h)


/-! ## Live symbol editing (`_apply_symbol_live`)

The 3×3 grid is modelled as a flat row-major list of nine optional
ingredients; `selected` is the flat index of the selected cell.  The
Python loop over `(rr, cc)` visits cells in row-major order, and the
`other is ing` identity test skips exactly the selected cell (each cell
holds its own `Ingredient` object in the source).  The error dialog is
modelled as the boolean second component of the result. -/

structure SymState where
  grid : List (Option Ingredient)
  selected : Nat
  symEntry : List Char
  codeToSymbol : List (List Char × Char)
deriving DecidableEq, Repr

/-- First alphabetic character of the raw entry text, uppercased. -/
def firstAlphaUpper (raw : List Char) : Option Char :=
  match raw.find? (fun c => c.isAlpha) with
  | some ch => some ch.toUpper
  | none => none

/-- The duplicate scan: some other slot with a different code already
holds the letter. -/
def hasConflict (grid : List (Option Ingredient)) (sel : Nat) (code : List Char)
    (first : Char) : Bool :=
  (List.range grid.length).any fun i =>
    (!(i == sel)) &&
      (match grid[i]? with
       | some (some other) => (!(other.code == code)) && (other.symbol == some first)
       | _ => false)

def symText : Option Char → List Char
  | some c => [c]
  | none => []

/-- `code_to_symbol[ing.code] = first` (dict assignment). -/
def upsertSym (m : List (List Char × Char)) (k : List Char) (v : Char) :
    List (List Char × Char) :=
  if m.any (fun p => p.1 == k) then m.map (fun p => if p.1 == k then (k, v) else p)
  else m ++ [(k, v)]

/-- `_apply_symbol_live` (with `_propagate_symbol_for_code` inlined as the
grid map); returns the new state and whether the duplicate-symbol error
was shown. -/
def applySymbolLive (st : SymState) : SymState × Bool :=
  match st.grid[st.selected]? with
  | some (some ing) =>
    match firstAlphaUpper st.symEntry with
    | none => ({ st with symEntry := symText ing.symbol }, false)
    | some first =>
      if hasConflict st.grid st.selected ing.code first then
        ({ st with symEntry := symText ing.symbol }, true)
      else
        let grid' :=
          if ing.code ≠ [] then
            st.grid.map (fun cell =>
              match cell with
              | some x => some (if x.code == ing.code then { x with symbol := some first } else x)
              | none => none)
          else st.grid.set st.selected (some { ing with symbol := some first })
        ({ st with
            grid := grid'
            codeToSymbol :=
              if ing.code ≠ [] then upsertSym st.codeToSymbol ing.code first
              else st.codeToSymbol
            symEntry := [first] }, false)
  | _ => ({ st with symEntry := [] }, false)

theorem hasConflict_of_witness {st : SymState} {ing other : Ingredient} {i : Nat}
    {first : Char}
    (hi : st.grid[i]? = some (some other)) (hne : i ≠ st.selected)
    (hcode : other.code ≠ ing.code) (hsym : other.symbol = some first) :
    hasConflict st.grid st.selected ing.code first = true := by
  rw [hasConflict, List.any_eq_true]
  refine ⟨i, List.mem_range.mpr ?_, ?_⟩
  · obtain ⟨h, _⟩ := List.getElem?_eq_some_iff.mp hi
    exact h
  · rw [hi]
    simp only [Bool.and_eq_true]
    refine ⟨by simpa using hne, by simp [hcode, hsym]⟩


/-! ## The variant corpus (`_collect_corpus_variants`)

The `dict[str, set[str]]` is modelled as an association list with
insertion-ordered token lists; the walk over the `itemtypes`/`blocktypes`
trees is modelled by the list of the file texts in walk order (files that
fail to open or decode are skipped by the source and therefore absent). -/

abbrev Corpus := List (List Char × List (List Char))

/-- `variants.setdefault(key, set()).add(token)`. -/
def corpusAdd : Corpus → List Char → List Char → Corpus
  | [], key, token => [(key, [token])]
  | (k, s) :: rest, key, token =>
    if k == key then (k, if s.contains token then s else s ++ [token]) :: rest
    else (k, s) :: corpusAdd rest key token

/-- The local helper `add(dom, base, token)` of the source. -/
def addTriple (acc : Corpus) (dom base token : List Char) : Corpus :=
  if base = [] ∨ token = [] then acc
  else corpusAdd acc (dom ++ ':' :: (base ++ ['-'])) token

/-- The triples found by `rex_dom.finditer` over one file text. -/
def domTriples (t : List Char) : List (List Char × List Char × List Char) :=
  scanKw matchDom true t.length false t

/-- The pairs found by `rex_nodom.finditer` over one file text. -/
def nodomPairs (t : List Char) : List (List Char × List Char) :=
  scanKw matchNodom true t.length false t

/-- Processing of a single definition file. -/
def collectFileVariants (acc : Corpus) (txt : List Char) : Corpus :=
  let acc1 := (domTriples txt).foldl
    (fun a dbt => addTriple a (dbt.1.map Char.toLower) dbt.2.1 dbt.2.2) acc
  (nodomPairs txt).foldl
    (fun a bt =>
      if bt.1.contains '*' || bt.2.contains '*' then a
      else addTriple a "game".data bt.1 bt.2) acc1

/-- `_collect_corpus_variants` over the file texts of the asset tree. -/
def collect_corpus_variants (files : List (List Char)) : Corpus :=
  files.foldl collectFileVariants []

/-- `variant_index.get(key, set())` membership view. -/
def lookupSet (corpus : Corpus) (k : List Char) : List (List Char) :=
  match corpus.find? (fun p => p.1 == k) with
  | some p => p.2
  | none => []

/-! ### Corpus lemmas -/

theorem lookupSet_nil (k : List Char) : lookupSet [] k = [] := rfl

theorem lookupSet_cons_pos {kk k' : List Char} (s : List (List Char)) (rest : Corpus)
    (hk' : (kk == k') = true) : lookupSet ((kk, s) :: rest) k' = s := by
  rw [lookupSet, List.find?_cons_of_pos _ (by simpa using hk')]

theorem lookupSet_cons_neg {kk k' : List Char} (s : List (List Char)) (rest : Corpus)
    (hk' : (kk == k') = false) : lookupSet ((kk, s) :: rest) k' = lookupSet rest k' := by
  rw [lookupSet, List.find?_cons_of_neg _ (by simpa using hk'), lookupSet]

theorem lookupSet_corpusAdd_self (acc : Corpus) (k t : List Char) :
    t ∈ lookupSet (corpusAdd acc k t) k := by
  induction acc with
  | nil =>
    rw [corpusAdd, lookupSet_cons_pos _ _ (by simp)]
    exact List.mem_singleton.mpr rfl
  | cons e rest ih =>
    rcases e with ⟨kk, s⟩
    rw [corpusAdd]
    split
    case isTrue hk =>
      rw [lookupSet_cons_pos _ _ hk]
      by_cases hmem : s.contains t
      · rw [if_pos hmem]
        exact (contains_true_iff _ _).mp hmem
      · rw [if_neg hmem]
        exact List.mem_append_right _ (List.mem_singleton.mpr rfl)
    case isFalse hk =>
      by_cases hkk : (kk == k) = true
      · exact absurd hkk hk
      · rw [lookupSet_cons_neg _ _ (Bool.not_eq_true _ ▸ hkk)]
        exact ih

theorem lookupSet_corpusAdd_mono {acc : Corpus} {k' x : List Char} (k t : List Char)
    (h : x ∈ lookupSet acc k') : x ∈ lookupSet (corpusAdd acc k t) k' := by
  induction acc with
  | nil => simp [lookupSet_nil] at h
  | cons e rest ih =>
    rcases e with ⟨kk, s⟩
    rw [corpusAdd]
    split
    case isTrue hk =>
      by_cases hk' : (kk == k') = true
      · rw [lookupSet_cons_pos _ _ hk'] at h
        rw [lookupSet_cons_pos _ _ hk']
        split
        · exact h
        · exact List.mem_append_left _ h
      · rw [lookupSet_cons_neg _ _ (Bool.not_eq_true _ ▸ hk')] at h
        rw [lookupSet_cons_neg _ _ (Bool.not_eq_true _ ▸ hk')]
        exact h
    case isFalse hk =>
      by_cases hk' : (kk == k') = true
      · rw [lookupSet_cons_pos _ _ hk'] at h
        rw [lookupSet_cons_pos _ _ hk']
        exact h
      · rw [lookupSet_cons_neg _ _ (Bool.not_eq_true _ ▸ hk')] at h
        rw [lookupSet_cons_neg _ _ (Bool.not_eq_true _ ▸ hk')]
        exact ih h

theorem lookupSet_corpusAdd_sound {acc : Corpus} {k' x : List Char} {k t : List Char}
    (h : x ∈ lookupSet (corpusAdd acc k t) k') :
    x ∈ lookupSet acc k' ∨ (k' = k ∧ x = t) := by
  induction acc with
  | nil =>
    rw [corpusAdd] at h
    by_cases hk' : (k == k') = true
    · rw [lookupSet_cons_pos _ _ hk'] at h
      have hk2 : k = k' := by simpa using hk'
      exact Or.inr ⟨hk2.symm, by simpa using h⟩
    · rw [lookupSet_cons_neg _ _ (Bool.not_eq_true _ ▸ hk'), lookupSet_nil] at h
      simp at h
  | cons e rest ih =>
    rcases e with ⟨kk, s⟩
    rw [corpusAdd] at h
    split at h
    case isTrue hk =>
      by_cases hk' : (kk == k') = true
      · rw [lookupSet_cons_pos _ _ hk'] at h
        split at h
        · left
          rw [lookupSet_cons_pos _ _ hk']
          exact h
        · rcases List.mem_append.mp h with h1 | h1
          · left
            rw [lookupSet_cons_pos _ _ hk']
            exact h1
          · right
            have hkk : kk = k := by simpa using hk
            have hkk' : kk = k' := by simpa using hk'
            exact ⟨hkk' ▸ hkk, by simpa using h1⟩
      · rw [lookupSet_cons_neg _ _ (Bool.not_eq_true _ ▸ hk')] at h
        left
        rw [lookupSet_cons_neg _ _ (Bool.not_eq_true _ ▸ hk')]
        exact h
    case isFalse hk =>
      by_cases hk' : (kk == k') = true
      · rw [lookupSet_cons_pos _ _ hk'] at h
        left
        rw [lookupSet_cons_pos _ _ hk']
        exact h
      · rw [lookupSet_cons_neg _ _ (Bool.not_eq_true _ ▸ hk')] at h
        rcases ih h with h1 | h1
        · left
          rw [lookupSet_cons_neg _ _ (Bool.not_eq_true _ ▸ hk')]
          exact h1
        · right
          exact h1


/-- The corpus key `f"{dom}:{base}-"`. -/
def keyOf (dom base : List Char) : List Char := dom ++ ':' :: (base ++ ['-'])

theorem addTriple_self {b t : List Char} (acc : Corpus) (d : List Char)
    (hb : b ≠ []) (ht : t ≠ []) :
    t ∈ lookupSet (addTriple acc d b t) (keyOf d b) := by
  rw [addTriple, if_neg (by simp [hb, ht]), keyOf]
  exact lookupSet_corpusAdd_self _ _ _

theorem addTriple_mono {acc : Corpus} {k' x : List Char} (d b t : List Char)
    (h : x ∈ lookupSet acc k') : x ∈ lookupSet (addTriple acc d b t) k' := by
  rw [addTriple]
  split
  · exact h
  · exact lookupSet_corpusAdd_mono _ _ h

theorem addTriple_sound {acc : Corpus} {k' x d b t : List Char}
    (h : x ∈ lookupSet (addTriple acc d b t) k') :
    x ∈ lookupSet acc k' ∨ (k' = keyOf d b ∧ x = t) := by
  rw [addTriple] at h
  split at h
  · exact Or.inl h
  · rcases lookupSet_corpusAdd_sound h with h1 | h1
    · exact Or.inl h1
    · exact Or.inr ⟨h1.1, h1.2⟩

/-! ### Fold lemmas -/

theorem foldl_lookup_mono {α : Type} (step : Corpus → α → Corpus)
    (hstep : ∀ (acc : Corpus) (a : α) (k' x : List Char),
      x ∈ lookupSet acc k' → x ∈ lookupSet (step acc a) k')
    (L : List α) {acc : Corpus} {k' x : List Char} (h : x ∈ lookupSet acc k') :
    x ∈ lookupSet (L.foldl step acc) k' := by
  induction L generalizing acc with
  | nil => exact h
  | cons a L ih =>
    rw [List.foldl_cons]
    exact ih (hstep _ _ _ _ h)

theorem foldl_lookup_intro {α : Type} (step : Corpus → α → Corpus)
    (hstep : ∀ (acc : Corpus) (a : α) (k' x : List Char),
      x ∈ lookupSet acc k' → x ∈ lookupSet (step acc a) k')
    {L : List α} {a : α} (ha : a ∈ L) {k' x : List Char}
    (hintro : ∀ acc' : Corpus, x ∈ lookupSet (step acc' a) k') (acc : Corpus) :
    x ∈ lookupSet (L.foldl step acc) k' := by
  obtain ⟨pre, post, rfl⟩ := List.append_of_mem ha
  rw [List.foldl_append, List.foldl_cons]
  exact foldl_lookup_mono step hstep post (hintro _)

theorem foldl_lookup_sound {α : Type} (step : Corpus → α → Corpus)
    (P : α → List Char → List Char → Prop)
    (hstep : ∀ (acc : Corpus) (a : α) (k' x : List Char),
      x ∈ lookupSet (step acc a) k' → x ∈ lookupSet acc k' ∨ P a k' x)
    (L : List α) {acc : Corpus} {k' x : List Char}
    (h : x ∈ lookupSet (L.foldl step acc) k') :
    x ∈ lookupSet acc k' ∨ ∃ a ∈ L, P a k' x := by
  induction L generalizing acc with
  | nil => exact Or.inl h
  | cons a L ih =>
    rw [List.foldl_cons] at h
    rcases ih h with h1 | h1
    · rcases hstep _ _ _ _ h1 with h2 | h2
      · exact Or.inl h2
      · exact Or.inr ⟨a, List.mem_cons_self _ _, h2⟩
    · rcases h1 with ⟨a', ha', hp⟩
      exact Or.inr ⟨a', List.mem_cons_of_mem _ ha', hp⟩

/-! ### Per-file and whole-corpus membership characterization -/

/-- A dom-rule contribution of `(k, x)`. -/
def PDom (dbt : List Char × List Char × List Char) (k x : List Char) : Prop :=
  k = keyOf (dbt.1.map Char.toLower) dbt.2.1 ∧ x = dbt.2.2

/-- A nodom-rule contribution of `(k, x)`. -/
def PNodom (bt : List Char × List Char) (k x : List Char) : Prop :=
  k = keyOf "game".data bt.1 ∧ x = bt.2

theorem collectFileVariants_mono {acc : Corpus} {k' x : List Char} (txt : List Char)
    (h : x ∈ lookupSet acc k') : x ∈ lookupSet (collectFileVariants acc txt) k' := by
  rw [collectFileVariants]
  apply foldl_lookup_mono
  · intro acc a k x h
    split
    · exact h
    · exact addTriple_mono _ _ _ h
  · apply foldl_lookup_mono
    · intro acc a k x h
      exact addTriple_mono _ _ _ h
    · exact h

theorem collectFileVariants_intro_dom {txt : List Char}
    {dbt : List Char × List Char × List Char} (hmem : dbt ∈ domTriples txt)
    (hb : dbt.2.1 ≠ []) (ht : dbt.2.2 ≠ []) (acc : Corpus) :
    dbt.2.2 ∈ lookupSet (collectFileVariants acc txt)
      (keyOf (dbt.1.map Char.toLower) dbt.2.1) := by
  rw [collectFileVariants]
  apply foldl_lookup_mono
  · intro acc a k x h
    split
    · exact h
    · exact addTriple_mono _ _ _ h
  · exact foldl_lookup_intro
      (fun a dbt => addTriple a (dbt.1.map Char.toLower) dbt.2.1 dbt.2.2)
      (fun acc a k x h => addTriple_mono _ _ _ h) hmem
      (fun acc' => addTriple_self _ _ hb ht) _

theorem collectFileVariants_intro_nodom {txt : List Char}
    {bt : List Char × List Char} (hmem : bt ∈ nodomPairs txt)
    (hstar : (bt.1.contains '*' || bt.2.contains '*') = false)
    (hb : bt.1 ≠ []) (ht : bt.2 ≠ []) (acc : Corpus) :
    bt.2 ∈ lookupSet (collectFileVariants acc txt) (keyOf "game".data bt.1) := by
  rw [collectFileVariants]
  exact foldl_lookup_intro _
    (fun acc a k x h => by
      split
      · exact h
      · exact addTriple_mono _ _ _ h) hmem
    (fun acc' => by
      rw [if_neg (by rw [hstar]; simp)]
      exact addTriple_self _ _ hb ht) _

theorem collectFileVariants_sound {acc : Corpus} {k' x : List Char} {txt : List Char}
    (h : x ∈ lookupSet (collectFileVariants acc txt) k') :
    x ∈ lookupSet acc k' ∨
      (∃ dbt ∈ domTriples txt, PDom dbt k' x) ∨
      (∃ bt ∈ nodomPairs txt, PNodom bt k' x) := by
  rw [collectFileVariants] at h
  rcases foldl_lookup_sound _ PNodom
      (fun acc a k x h => by
        split at h
        · exact Or.inl h
        · rcases addTriple_sound h with h1 | h1
          · exact Or.inl h1
          · exact Or.inr ⟨h1.1, h1.2⟩) _ h with h1 | h1
  · rcases foldl_lookup_sound _ PDom
        (fun acc a k x h => by
          rcases addTriple_sound h with h1 | h1
          · exact Or.inl h1
          · exact Or.inr ⟨h1.1, h1.2⟩) _ h1 with h2 | h2
    · exact Or.inl h2
    · exact Or.inr (Or.inl h2)
  · exact Or.inr (Or.inr h1)

theorem collect_corpus_variants_mono {files : List (List Char)} {txt k' x : List Char}
    (hmem : txt ∈ files)
    (hintro : ∀ acc : Corpus, x ∈ lookupSet (collectFileVariants acc txt) k') :
    x ∈ lookupSet (collect_corpus_variants files) k' := by
  rw [collect_corpus_variants]
  exact foldl_lookup_intro collectFileVariants
    (fun acc a k x h => collectFileVariants_mono _ h) hmem hintro _

theorem collect_corpus_variants_sound {files : List (List Char)} {k' x : List Char}
    (h : x ∈ lookupSet (collect_corpus_variants files) k') :
    ∃ txt ∈ files,
      (∃ dbt ∈ domTriples txt, PDom dbt k' x) ∨
      (∃ bt ∈ nodomPairs txt, PNodom bt k' x) := by
  rw [collect_corpus_variants] at h
  rcases foldl_lookup_sound _
      (fun txt k x =>
        (∃ dbt ∈ domTriples txt, PDom dbt k x) ∨ (∃ bt ∈ nodomPairs txt, PNodom bt k x))
      (fun acc a k x h => by
        rcases collectFileVariants_sound h with h1 | h1
        · exact Or.inl h1
        · exact Or.inr h1) _ h with h1 | h1
  · rw [lookupSet_nil] at h1
    simp at h1
  · exact h1


/-! ### Shape of the scanner output (for the corpus-key invariant) -/

theorem scanKw_mem {α : Type} {m : List Char → Option (α × List Char)} {pwA : Bool}
    {f : Nat} {pw : Bool} {l : List Char} {x : α} (h : x ∈ scanKw m pwA f pw l) :
    ∃ l₀ r, m l₀ = some (x, r) := by
  induction f generalizing pw l with
  | zero => simp [scanKw] at h
  | succ f ih =>
    match l with
    | [] => simp [scanKw] at h
    | c :: rest =>
      rw [scanKw] at h
      rcases hm : (if pw then none else m (c :: rest)) with _ | ⟨v, r⟩
      · rw [hm] at h
        exact ih h
      · rw [hm] at h
        rcases List.mem_cons.mp h with h1 | h1
        · subst h1
          rcases pw with _ | _
          · exact ⟨c :: rest, r, by simpa using hm⟩
          · simp at hm
        · exact ih h1

theorem matchDom_shape {l : List Char} {d b t r : List Char}
    (h : matchDom l = some ((d, b, t), r)) :
    d ≠ [] ∧ b ≠ [] ∧ t ≠ [] ∧
      (∀ c ∈ d, isWordChar c = true) ∧ (∀ c ∈ b, isWordChar c = true) ∧
      (∀ c ∈ t, isWordChar c = true) := by
  rw [matchDom] at h
  split at h
  · simp at h
  case isFalse h1 =>
    split at h
    case h_1 r2 heq2 =>
      split at h
      · simp at h
      case isFalse h2 =>
        split at h
        case h_1 r4 heq4 =>
          split at h
          · simp at h
          case isFalse h3 =>
            rw [Option.some_inj] at h
            obtain ⟨h4, h5⟩ := Prod.mk.injEq .. ▸ h
            obtain ⟨hd, h6⟩ := Prod.mk.injEq .. ▸ h4
            obtain ⟨hb, ht⟩ := Prod.mk.injEq .. ▸ h6
            subst hd
            subst hb
            subst ht
            refine ⟨h1, h2, h3, ?_, ?_, ?_⟩ <;>
              exact fun c hc => List.mem_takeWhile_imp hc
        case h_2 => simp at h
    case h_2 => simp at h

theorem matchNodom_shape {l : List Char} {b t r : List Char}
    (h : matchNodom l = some ((b, t), r)) :
    b ≠ [] ∧ t ≠ [] ∧
      (∀ c ∈ b, isWordChar c = true) ∧ (∀ c ∈ t, isWordChar c = true) := by
  rw [matchNodom] at h
  split at h
  · simp at h
  case isFalse h1 =>
    split at h
    case h_1 r2 heq2 =>
      split at h
      · simp at h
      case isFalse h2 =>
        rw [Option.some_inj] at h
        obtain ⟨h4, h5⟩ := Prod.mk.injEq .. ▸ h
        obtain ⟨hb, ht⟩ := Prod.mk.injEq .. ▸ h4
        subst hb
        subst ht
        refine ⟨h1, h2, ?_, ?_⟩ <;>
          exact fun c hc => List.mem_takeWhile_imp hc
    case h_2 => simp at h

/-! ### Character facts for lowercasing -/

theorem char_ofNat_toNat_small (n : Nat) (h : n ≤ 200) : (Char.ofNat n).toNat = n := by
  have hv : n.isValidChar := by
    left
    omega
  rw [Char.ofNat, dif_pos hv]
  simp [Char.ofNatAux, Char.toNat, UInt32.toNat, BitVec.toNat_ofNatLt]

theorem isUpper_toLower (c : Char) : (Char.toLower c).isUpper = false := by
  by_cases h : c.toNat ≥ 65 ∧ c.toNat ≤ 90
  · have ht : (Char.ofNat (Char.toNat c + 32)).toNat = Char.toNat c + 32 :=
      char_ofNat_toNat_small _ (by omega)
    simp only [Char.toLower, if_pos h]
    simp only [Char.isUpper]
    by_contra hb
    simp only [Bool.not_eq_false, Bool.and_eq_true, decide_eq_true_eq] at hb
    have hle : (Char.ofNat (c.toNat + 32)).toNat ≤ ('Z' : Char).toNat := hb.2
    rw [ht] at hle
    have h90 : ('Z' : Char).toNat = 90 := by decide
    omega
  · simp only [Char.toLower, if_neg h, Char.isUpper]
    by_contra hb
    simp only [Bool.not_eq_false, Bool.and_eq_true, decide_eq_true_eq] at hb
    have hA : ('A' : Char).toNat ≤ c.toNat := hb.1
    have hZ : c.toNat ≤ ('Z' : Char).toNat := hb.2
    have h65 : ('A' : Char).toNat = 65 := by decide
    have h90 : ('Z' : Char).toNat = 90 := by decide
    omega

/-! ### The corpus key invariant -/

/-- Well-formed corpus keys: `domain:base-` with a nonempty lowercased
domain and a nonempty word-character base. -/
def GoodKey (k : List Char) : Prop :=
  ∃ d b, k = keyOf d b ∧ d ≠ [] ∧ b ≠ [] ∧
    (∀ c ∈ b, isWordChar c = true) ∧ (∀ c ∈ d, c.isUpper = false)

def GoodCorpus (acc : Corpus) : Prop := ∀ e ∈ acc, GoodKey e.1 ∧ e.2 ≠ []

theorem goodCorpus_corpusAdd {acc : Corpus} {k t : List Char}
    (hacc : GoodCorpus acc) (hk : GoodKey k) : GoodCorpus (corpusAdd acc k t) := by
  induction acc with
  | nil =>
    intro e he
    rw [corpusAdd] at he
    rcases List.mem_singleton.mp he with rfl
    exact ⟨hk, by simp⟩
  | cons e0 rest ih =>
    rcases e0 with ⟨kk, s⟩
    intro e he
    rw [corpusAdd] at he
    split at he
    case isTrue hkk =>
      rcases List.mem_cons.mp he with h1 | h1
      · subst h1
        refine ⟨(hacc _ (List.mem_cons_self _ _)).1, ?_⟩
        split
        · exact (hacc _ (List.mem_cons_self _ _)).2
        · simp
      · exact hacc _ (List.mem_cons_of_mem _ h1)
    case isFalse hkk =>
      rcases List.mem_cons.mp he with h1 | h1
      · subst h1
        exact hacc _ (List.mem_cons_self _ _)
      · exact ih (fun e' he' => hacc _ (List.mem_cons_of_mem _ he')) _ h1

theorem goodCorpus_addTriple {acc : Corpus} {d b t : List Char}
    (hacc : GoodCorpus acc) (hd : d ≠ []) (hb : ∀ c ∈ b, isWordChar c = true)
    (hdl : ∀ c ∈ d, c.isUpper = false) : GoodCorpus (addTriple acc d b t) := by
  rw [addTriple]
  split
  · exact hacc
  case isFalse hne =>
    apply goodCorpus_corpusAdd hacc
    exact ⟨d, b, rfl, hd, fun hbe => hne (Or.inl hbe), hb, hdl⟩

theorem foldl_goodCorpus {α : Type} (step : Corpus → α → Corpus) (L : List α)
    (hstep : ∀ (acc : Corpus) (a : α), a ∈ L → GoodCorpus acc → GoodCorpus (step acc a))
    {acc : Corpus} (hacc : GoodCorpus acc) : GoodCorpus (L.foldl step acc) := by
  induction L generalizing acc with
  | nil => exact hacc
  | cons a L ih =>
    rw [List.foldl_cons]
    exact ih (fun acc' a' ha' => hstep acc' a' (List.mem_cons_of_mem _ ha'))
      (hstep _ _ (List.mem_cons_self _ _) hacc)

theorem goodCorpus_collectFileVariants {acc : Corpus} (txt : List Char)
    (hacc : GoodCorpus acc) : GoodCorpus (collectFileVariants acc txt) := by
  rw [collectFileVariants]
  apply foldl_goodCorpus
  · intro acc' bt hmem hacc'
    split
    · exact hacc'
    · obtain ⟨l₀, r, hm⟩ := scanKw_mem hmem
      obtain ⟨hb, ht, hwb, hwt⟩ := matchNodom_shape hm
      exact goodCorpus_addTriple hacc' (by simp) hwb (by intro c hc; fin_cases hc <;> rfl)
  · apply foldl_goodCorpus
    · intro acc' dbt hmem hacc'
      obtain ⟨l₀, r, hm⟩ := scanKw_mem hmem
      obtain ⟨hd, hb, ht, hwd, hwb, hwt⟩ := matchDom_shape hm
      apply goodCorpus_addTriple hacc' ?_ hwb ?_
      · intro hnil
        exact hd (List.map_eq_nil_iff.mp hnil)
      · intro c hc
        obtain ⟨c0, _, rfl⟩ := List.mem_map.mp hc
        exact isUpper_toLower c0
    · exact hacc

theorem goodCorpus_collect (files : List (List Char)) :
    GoodCorpus (collect_corpus_variants files) := by
  rw [collect_corpus_variants]
  apply foldl_goodCorpus
  · intro acc txt hmem hacc
    exact goodCorpus_collectFileVariants txt hacc
  · intro e he
    simp at he


/-! ## The JSON5 export (`build_json5_text` and helpers)

Output text is modelled as `List Char` with lines joined by a newline
(`"\n".join`).  Literal braces of the generated document are written with
their `\x7b`/`\x7d` escapes. -/

def gridSize : Nat := 3

/-- Decimal digits of a natural number (fueled by the number itself,
which always suffices). -/
def natDigitsAux : Nat → Nat → List Char
  | 0, _ => []
  | f + 1, n => if n = 0 then [] else natDigitsAux f (n / 10) ++ [Char.ofNat (48 + n % 10)]

def natDigits (n : Nat) : List Char := if n = 0 then ['0'] else natDigitsAux n n

def digitsVal (ds : List Char) : Nat := ds.foldl (fun n c => n * 10 + (c.toNat - 48)) 0

/-- Python `int(str)` on the strings this program feeds it (optional sign,
decimal digits); `none` models the `ValueError`. -/
def pyInt (s : List Char) : Option Int :=
  match pyStrip s with
  | '-' :: ds =>
    if ds ≠ [] ∧ ds.all (fun c => c.isDigit) then some (-(digitsVal ds : Int)) else none
  | '+' :: ds =>
    if ds ≠ [] ∧ ds.all (fun c => c.isDigit) then some (digitsVal ds : Int) else none
  | ds =>
    if ds ≠ [] ∧ ds.all (fun c => c.isDigit) then some (digitsVal ds : Int) else none

def quoteJ (l : List Char) : List Char := '"' :: (l ++ ['"'])

/-- `_symbol_for_code` (the pure letter computation; the
`code_to_symbol` cache write-back is a separate state update in the
source and is not needed by the claims under study). -/
def symbol_for_code (grid : List (List (Option Ingredient)))
    (c2s : List (List Char × Char)) (code : List Char) : Char :=
  let used : List Char :=
    grid.flatMap (fun row => row.filterMap (fun cell => cell.bind (fun x => x.symbol)))
  let lettersOfCode : List Char :=
    grid.flatMap (fun row => row.filterMap (fun cell =>
      match cell with
      | some x => if (x.code == code) then x.symbol else none
      | none => none))
  let firstFree : Char :=
    match (List.range 26).findSome? (fun i =>
      if used.contains (Char.ofNat (65 + i)) then none else some (Char.ofNat (65 + i))) with
    | some c => c
    | none => 'X'
  match c2s.find? (fun p => p.1 == code) with
  | some p =>
    if used.contains p.2 && !(lettersOfCode.contains p.2) then firstFree else p.2
  | none => firstFree

/-- `_build_ingredient_pattern`. -/
def build_ingredient_pattern (grid : List (List (Option Ingredient)))
    (c2s : List (List Char × Char)) : List Char :=
  List.intercalate [','] (grid.map (fun row => row.map (fun cell =>
    match cell with
    | some ing =>
      if ing.code ≠ [] then
        (match ing.symbol with
         | some s => s
         | none => symbol_for_code grid c2s ing.code)
      else '_'
    | none => '_')))

/-- `_collect_ingredients_dict` (insertion-ordered symbol map). -/
def collect_ingredients (grid : List (List (Option Ingredient)))
    (c2s : List (List Char × Char)) : List (Char × Ingredient) :=
  (grid.flatMap id).foldl (fun acc cell =>
    match cell with
    | some ing =>
      if ing.code ≠ [] then
        if acc.any (fun p => p.1 ==
            (match ing.symbol with
             | some s => s
             | none => symbol_for_code grid c2s ing.code)) then acc
        else acc ++ [((match ing.symbol with
             | some s => s
             | none => symbol_for_code grid c2s ing.code), ing)]
      else acc
    | none => acc) []

/-- The inner fields of one exported ingredient object. -/
def ingredientInner (ing : Ingredient) : List (List Char) :=
  ["type: \"item\"".data, "code: ".data ++ quoteJ ing.code]
  ++ (if ing.name ≠ [] then ["name: ".data ++ quoteJ ing.name] else [])
  ++ (if ing.allowed_variants ≠ [] then
        ["allowedVariants: [ ".data ++
          List.intercalate ", ".data (ing.allowed_variants.map quoteJ) ++ " ]".data]
      else [])
  ++ (if ing.is_tool then
        "isTool: true".data ::
          (if ing.tool_cost ≠ 0 then
            ["toolDurabilityCost: ".data ++ natDigits ing.tool_cost] else [])
      else [])
  ++ (if ing.quantity ≠ 0 ∧ ing.quantity ≠ 1 then
        ["quantity: ".data ++ natDigits ing.quantity] else [])

def ingredientLine (sym : Char) (ing : Ingredient) : List Char :=
  "\t\t\t\"".data ++ [sym] ++ "\": \x7b ".data ++
    List.intercalate ", ".data (ingredientInner ing) ++ " \x7d,".data

def insertSorted (c : Char) : List Char → List Char
  | [] => [c]
  | d :: r => if c ≤ d then c :: d :: r else d :: insertSorted c r

/-- `sorted(...)` over the symbol keys. -/
def sortChars : List Char → List Char
  | [] => []
  | c :: r => insertSorted c (sortChars r)

/-- The `if lines[-1].endswith(","): lines[-1] = lines[-1][:-1]` step. -/
def stripLastComma (ls : List (List Char)) : List (List Char) :=
  match ls.getLast? with
  | some s => if s.getLast? = some ',' then ls.dropLast ++ [s.dropLast] else ls
  | none => ls

/-- The mutable interactive state consumed by the export. -/
structure AppState where
  grid : List (List (Option Ingredient))
  shapeless : Bool
  output_code : List Char
  output_qty : List Char
  code_to_symbol : List (List Char × Char)

/-- `build_json5_text`. -/
def build_json5_text (st : AppState) : List Char :=
  let pat := build_ingredient_pattern st.grid st.code_to_symbol
  let ingMap := collect_ingredients st.grid st.code_to_symbol
  let syms := sortChars (ingMap.map (fun p => p.1))
  let ingLines := syms.filterMap (fun sym =>
    (ingMap.find? (fun p => p.1 == sym)).map (fun p => ingredientLine p.1 p.2))
  let lines1 : List (List Char) :=
    ["[".data, "\t\x7b".data,
     "\t\tingredientPattern: ".data ++ quoteJ pat ++ [','],
     "\t\tshapeless: ".data ++ (if st.shapeless then "true".data else "false".data) ++ [','],
     "\t\tingredients: \x7b".data] ++ ingLines
  let lines2 := stripLastComma lines1
  let out_code := if pyStrip st.output_code = [] then "game:__set_output__".data
    else pyStrip st.output_code
  let q : Int := match pyInt st.output_qty with | some n => max 1 n | none => 1
  let out_inner := ["type: \"item\"".data, "code: ".data ++ quoteJ out_code] ++
    (if q ≠ 1 then ["quantity: ".data ++ natDigits q.toNat] else [])
  let lines3 := lines2 ++
    ["\t\t\x7d,".data,
     "\t\twidth: ".data ++ natDigits gridSize ++ [','],
     "\t\theight: ".data ++ natDigits gridSize ++ [','],
     "\t\toutput: \x7b ".data ++ List.intercalate ", ".data out_inner ++ " \x7d".data,
     "\t\x7d,".data, "]".data]
  List.intercalate ['\n'] lines3

/-- The freshly reset interactive state: nine empty slots, blank output
code, output quantity field `"1"`. -/
def emptyState : AppState :=
  ⟨List.replicate 3 (List.replicate 3 none), false, [], ['1'], []⟩


/-! ## The claims -/

/-- C1 (counterexample to the claim as stated): the extractor does not
guarantee the absence of double dashes — the text `code: "a--b"` yields
the pattern `game:a--b`, which contains `--` (and its sibling
`game:a--b-*` does too). -/
theorem C1_counterexample :
    "game:a--b".data ∈ discoverCodesInText "code: \"a--b\"".data ∧
      hasPair '-' '-' "game:a--b".data = true := by
  constructor
  · decide
  · decide

/-- C1 (amended): every identifier pattern produced by the code extractor
contains no two consecutive `*` characters.  (The double-dash half of the
claim is false, see the counterexample.) -/
theorem C1_amended_no_double_star (text p : List Char)
    (h : p ∈ discoverCodesInText text) : hasPair '*' '*' p = false := by
  rcases mem_discoverCodesInText h with ⟨v, rfl⟩ | ⟨v, rfl⟩
  · exact withDomain_no_star_pair (normPattern_no_star_pair v)
  · exact sibling_no_star_pair (withDomain_no_star_pair (normPattern_no_star_pair v))

theorem C1_witness :
    "game:foo".data ∈ discoverCodesInText "code: \"foo\"".data ∧
      hasPair '*' '*' "game:foo".data = false :=
  ⟨by decide, C1_amended_no_double_star "code: \"foo\"".data "game:foo".data (by decide)⟩

/-- C2 (counterexample to the claim as stated): containing `code: "foo"`
as a *substring* is not enough — in `xcode: "foo"` the keyword fails the
`\b` word-boundary test, and the extractor returns nothing. -/
theorem C2_counterexample :
    ¬ ("game:foo".data ∈ discoverCodesInText "xcode: \"foo\"".data) := by
  decide

/-- C2 (amended): for every quoted value captured by the rule-1 scan
(keyword `code` at a word boundary, colon, quoted literal), the
normalized domain-qualified form is in the result, and its `-*` sibling
is too whenever that form does not end in `*` and does not contain `-*`;
in particular extracting the text `code: "foo"` itself yields both
`game:foo` and `game:foo-*`. -/
theorem C2_amended_rule1_adds_base_and_sibling (text v : List Char)
    (hv : v ∈ rule1Vals text) (hne : v ≠ []) :
    withDomain (normPattern v) ∈ discoverCodesInText text ∧
      ((withDomain (normPattern v)).getLast? ≠ some '*' ∧
          hasPair '-' '*' (withDomain (normPattern v)) = false →
        withDomain (normPattern v) ++ ['-', '*'] ∈ discoverCodesInText text) ∧
      "game:foo".data ∈ discoverCodesInText "code: \"foo\"".data ∧
      "game:foo-*".data ∈ discoverCodesInText "code: \"foo\"".data := by
  refine ⟨?_, ?_, by decide, by decide⟩
  · rw [discoverCodesInText]
    apply List.mem_append_left
    apply List.mem_append_left
    apply List.mem_append_left
    apply List.mem_flatMap.mpr
    refine ⟨v, hv, ?_⟩
    rw [if_neg hne]
    exact List.mem_cons_self _ _
  · rintro ⟨h1, h2⟩
    rw [discoverCodesInText]
    apply List.mem_append_left
    apply List.mem_append_left
    apply List.mem_append_left
    apply List.mem_flatMap.mpr
    refine ⟨v, hv, ?_⟩
    rw [if_neg hne]
    apply List.mem_cons_of_mem
    rw [if_pos ⟨h1, h2⟩]
    exact List.mem_singleton.mpr rfl

theorem C2_witness :
    "game:foo".data ∈ discoverCodesInText "code: \"foo\"".data ∧
      "game:foo-*".data ∈ discoverCodesInText "code: \"foo\"".data :=
  ⟨(C2_amended_rule1_adds_base_and_sibling "code: \"foo\"".data "foo".data
      (by decide) (by decide)).2.2.1,
   (C2_amended_rule1_adds_base_and_sibling "code: \"foo\"".data "foo".data
      (by decide) (by decide)).2.2.2⟩

/-- C3: `_norm_pattern` is idempotent. -/
theorem C3_norm_pattern_idempotent (s : List Char) :
    normPattern (normPattern s) = normPattern s :=
  normPattern_idem s

/-- C4 (counterexample to the claim as stated): starting from the code
`a*-` — which has no trailing `*` — a single wildcard toggle produces
`a**`, which contains a double star: the normalizer strips the trailing
dashes but not an interior star left next to them. -/
theorem C4_counterexample :
    (Ingredient.mk "a*-".data 1 false 0 none [] []).code.getLast? ≠ some '*' ∧
      (applyOps [SlotOp.sideApply true]
        (Ingredient.mk "a*-".data 1 false 0 none [] [])).code = "a**".data ∧
      hasPair '*' '*'
        (applyOps [SlotOp.sideApply true]
          (Ingredient.mk "a*-".data 1 false 0 none [] [])).code = true := by
  refine ⟨by decide, by decide, by decide⟩

/-- C4 (amended): for an ingredient whose initial code contains no `*` at
all and no `--`, every sequence of wildcard-toggle and variant-set
operations leaves the code free of `--` and of `**` (every prefix of a
sequence is itself a sequence, so this covers every intermediate
point). -/
theorem C4_amended_ops_preserve_no_doubles (ing : Ingredient) (ops : List SlotOp)
    (hstar : '*' ∉ ing.code) (hdash : hasPair '-' '-' ing.code = false) :
    hasPair '-' '-' (applyOps ops ing).code = false ∧
      hasPair '*' '*' (applyOps ops ing).code = false := by
  have hinv : CodeInv ing.code :=
    ⟨hdash, fun hm => hstar ((List.dropLast_sublist _).mem hm)⟩
  have h2 := codeInv_applyOps ops hinv
  exact ⟨h2.1, h2.no_star_pair⟩

theorem C4_witness :
    hasPair '-' '-' (applyOps
        [SlotOp.sideApply true, SlotOp.setVars true ["oak".data], SlotOp.sideApply false]
        (Ingredient.mk "game:plank".data 1 false 0 none [] [])).code = false ∧
      hasPair '*' '*' (applyOps
        [SlotOp.sideApply true, SlotOp.setVars true ["oak".data], SlotOp.sideApply false]
        (Ingredient.mk "game:plank".data 1 false 0 none [] [])).code = false :=
  C4_amended_ops_preserve_no_doubles
    (Ingredient.mk "game:plank".data 1 false 0 none [] [])
    [SlotOp.sideApply true, SlotOp.setVars true ["oak".data], SlotOp.sideApply false]
    (by decide) (by decide)

/-- C5: on an ingredient whose code ends in `*`, `_normalize_wildcard_code`
produces exactly "strip the trailing star, strip trailing dashes, append
`-*` if variants are selected else `*`"; hence an empty variant set yields
a bare trailing `*` not preceded by a dash, and a non-empty one yields a
`-*` suffix. -/
theorem C5_normalize_wildcard_form (ing : Ingredient)
    (h : ing.code.getLast? = some '*') :
    (normalizeWildcardCode ing).code =
      dropTrailing (fun c => c == '-') ing.code.dropLast ++
        (if ing.allowed_variants ≠ [] then ['-', '*'] else ['*']) ∧
    (ing.allowed_variants = [] →
      (normalizeWildcardCode ing).code.getLast? = some '*' ∧
        (normalizeWildcardCode ing).code.dropLast.getLast? ≠ some '-') ∧
    (ing.allowed_variants ≠ [] → ['-', '*'] <:+ (normalizeWildcardCode ing).code) := by
  have hcode : (normalizeWildcardCode ing).code =
      dropTrailing (fun c => c == '-') ing.code.dropLast ++
        (if ing.allowed_variants ≠ [] then ['-', '*'] else ['*']) := by
    rw [normalizeWildcardCode, if_pos h]
  refine ⟨hcode, ?_, ?_⟩
  · intro hv
    rw [hcode, if_neg (by simp [hv])]
    constructor
    · exact List.getLast?_concat _
    · rw [List.dropLast_concat]
      intro hl
      have := dropTrailing_getLast _ _ _ hl
      simp at this
  · intro hv
    rw [hcode, if_pos hv]
    exact ⟨_, rfl⟩

theorem C5_witness :
    (normalizeWildcardCode
        (Ingredient.mk "game:ingot--*".data 1 false 0 none [] ["copper".data])).code
      = "game:ingot-*".data ∧
    (normalizeWildcardCode
        (Ingredient.mk "game:ingot--*".data 1 false 0 none [] [])).code
      = "game:ingot*".data ∧
    ['-', '*'] <:+ (normalizeWildcardCode
        (Ingredient.mk "game:ingot--*".data 1 false 0 none [] ["copper".data])).code := by
  refine ⟨?_, ?_, ?_⟩
  · have := (C5_normalize_wildcard_form
      (Ingredient.mk "game:ingot--*".data 1 false 0 none [] ["copper".data]) (by decide)).1
    rw [this]
    decide
  · have := (C5_normalize_wildcard_form
      (Ingredient.mk "game:ingot--*".data 1 false 0 none [] []) (by decide)).1
    rw [this]
    decide
  · exact (C5_normalize_wildcard_form
      (Ingredient.mk "game:ingot--*".data 1 false 0 none [] ["copper".data])
      (by decide)).2.2 (by simp)


/-- C6: for a direct root `R`, the candidates tested are exactly
`R/assets/survival`, `R/Vintagestory/assets/survival`,
`parent(R)/Vintagestory/assets/survival`, `R`, in that order, and the
resolver returns the first candidate satisfying the validation predicate,
regardless of the validity of the later candidates (and of the
environment fallback). -/
theorem C6_candidate_order_first_valid (valid : PathC → Bool) (root : PathC)
    (pre post : List PathC) (c : PathC)
    (hsplit : candidate_list_from_root root = pre ++ c :: post)
    (hpre : ∀ p ∈ pre, valid p = false) (hc : valid c = true) :
    candidate_list_from_root root =
      [root ++ ["assets", "survival"],
       root ++ ["Vintagestory", "assets", "survival"],
       root.dropLast ++ ["Vintagestory", "assets", "survival"],
       root] ∧
    (∀ (env : String → Option PathC) (env_key : Option String),
      resolve_survival_dir env env_key (some root) valid = some c) := by
  have h1 : firstValid valid (candidate_list_from_root root) = some c := by
    rw [hsplit]
    exact firstValid_append_of_none hpre c post hc
  refine ⟨rfl, fun env env_key => ?_⟩
  rw [resolve_survival_dir.eq_def]
  simp only [h1]

theorem C6_witness :
    resolve_survival_dir (fun _ => none) none (some ["R"])
        (fun p => (p == ["R", "Vintagestory", "assets", "survival"]) || (p == ["R"]))
      = some ["R", "Vintagestory", "assets", "survival"] :=
  (C6_candidate_order_first_valid
    (fun p => (p == ["R", "Vintagestory", "assets", "survival"]) || (p == ["R"]))
    ["R"]
    [["R", "assets", "survival"]]
    [["Vintagestory", "assets", "survival"], ["R"]]
    ["R", "Vintagestory", "assets", "survival"]
    (by decide) (by decide) (by decide)).2 (fun _ => none) none

/-- C7: when another grid slot with a *different* code already holds the
requested letter, `_apply_symbol_live` rejects the assignment: the grid
(hence the target ingredient's symbol and every other symbol) and the
`code_to_symbol` map are unchanged, the entry is restored to the previous
symbol text, and the duplicate-symbol error is surfaced. -/
theorem C7_symbol_collision_rejected (st : SymState) (ing other : Ingredient)
    (i : Nat) (first : Char)
    (hsel : st.grid[st.selected]? = some (some ing))
    (hfirst : firstAlphaUpper st.symEntry = some first)
    (hi : st.grid[i]? = some (some other)) (hne : i ≠ st.selected)
    (hcode : other.code ≠ ing.code) (hsym : other.symbol = some first) :
    (applySymbolLive st).1.grid = st.grid ∧
      (applySymbolLive st).1.codeToSymbol = st.codeToSymbol ∧
      (applySymbolLive st).1.selected = st.selected ∧
      (applySymbolLive st).1.symEntry = symText ing.symbol ∧
      (applySymbolLive st).2 = true := by
  have hres : applySymbolLive st = ({ st with symEntry := symText ing.symbol }, true) := by
    simp only [applySymbolLive, hsel, hfirst]
    rw [if_pos (hasConflict_of_witness hi hne hcode hsym)]
  rw [hres]
  exact ⟨rfl, rfl, rfl, rfl, rfl⟩

set_option maxRecDepth 20000 in
theorem C7_witness :
    (applySymbolLive
        ⟨[some (Ingredient.mk "game:plank".data 1 false 0 (some 'A') [] []),
          some (Ingredient.mk "game:log".data 1 false 0 (some 'B') [] []),
          none, none, none, none, none, none, none], 1, ['a'], []⟩).1.grid =
      [some (Ingredient.mk "game:plank".data 1 false 0 (some 'A') [] []),
       some (Ingredient.mk "game:log".data 1 false 0 (some 'B') [] []),
       none, none, none, none, none, none, none] ∧
    (applySymbolLive
        ⟨[some (Ingredient.mk "game:plank".data 1 false 0 (some 'A') [] []),
          some (Ingredient.mk "game:log".data 1 false 0 (some 'B') [] []),
          none, none, none, none, none, none, none], 1, ['a'], []⟩).1.symEntry = ['B'] ∧
    (applySymbolLive
        ⟨[some (Ingredient.mk "game:plank".data 1 false 0 (some 'A') [] []),
          some (Ingredient.mk "game:log".data 1 false 0 (some 'B') [] []),
          none, none, none, none, none, none, none], 1, ['a'], []⟩).2 = true := by
  have h := C7_symbol_collision_rejected
    ⟨[some (Ingredient.mk "game:plank".data 1 false 0 (some 'A') [] []),
      some (Ingredient.mk "game:log".data 1 false 0 (some 'B') [] []),
      none, none, none, none, none, none, none], 1, ['a'], []⟩
    (Ingredient.mk "game:log".data 1 false 0 (some 'B') [] [])
    (Ingredient.mk "game:plank".data 1 false 0 (some 'A') [] [])
    0 'A' (by decide) (by decide) (by decide) (by decide) (by decide) (by decide)
  exact ⟨h.1, h.2.2.2.1, h.2.2.2.2⟩

set_option maxRecDepth 20000 in
/-- C9: with no direct root and the environment variable unset, discovery
returns the empty pool and no root; and the export of the freshly reset
state (nine empty slots, blank output code) still produces the document
with an empty ingredients mapping and the placeholder output code
`game:__set_output__`. -/
theorem C9_discovery_miss_and_empty_export (env : String → Option PathC)
    (valid : PathC → Bool) (filesOf : PathC → List (List Char))
    (henv : env "VINTAGE_STORY" = none) :
    discover_game_codes env (some "VINTAGE_STORY") none valid filesOf = ([], none) ∧
      collect_ingredients emptyState.grid emptyState.code_to_symbol = [] ∧
      build_json5_text emptyState =
        ("[\n\t\x7b\n\t\tingredientPattern: \"___,___,___\",\n\t\tshapeless: false,"
          ++ "\n\t\tingredients: \x7b\n\t\t\x7d,\n\t\twidth: 3,\n\t\theight: 3,"
          ++ "\n\t\toutput: \x7b type: \"item\", code: \"game:__set_output__\" \x7d"
          ++ "\n\t\x7d,\n]").data := by
  refine ⟨?_, by decide, by decide⟩
  rw [discover_game_codes.eq_def, resolve_survival_dir.eq_def]
  simp only [henv]

theorem C9_witness :
    discover_game_codes (fun _ => none) (some "VINTAGE_STORY") none (fun _ => false)
        (fun _ => []) = ([], none) ∧
      collect_ingredients emptyState.grid emptyState.code_to_symbol = [] :=
  ⟨(C9_discovery_miss_and_empty_export (fun _ => none) (fun _ => false) (fun _ => [])
      rfl).1,
   (C9_discovery_miss_and_empty_export (fun _ => none) (fun _ => false) (fun _ => [])
      rfl).2.1⟩


/-- C10: every entry of the corpus has a key of the form `domain:base-`
(nonempty lowercased domain, nonempty word-character base), ending in
exactly one trailing dash, and maps to a non-empty token set. -/
theorem C10_corpus_key_shape (files : List (List Char)) (k : List Char)
    (s : List (List Char)) (h : (k, s) ∈ collect_corpus_variants files) :
    s ≠ [] ∧
      (∃ d b, k = d ++ ':' :: (b ++ ['-']) ∧ d ≠ [] ∧ b ≠ [] ∧
        (∀ c ∈ b, isWordChar c = true) ∧ (∀ c ∈ d, c.isUpper = false)) ∧
      k.getLast? = some '-' ∧ ¬ (k.dropLast.getLast? = some '-') := by
  obtain ⟨hk, hs0⟩ := goodCorpus_collect files (k, s) h
  obtain ⟨d, b, hkey0, hd, hb, hwb, hdl⟩ := hk
  have hs : s ≠ [] := hs0
  have hkey : k = keyOf d b := hkey0
  have hassoc : k = (d ++ ':' :: b) ++ ['-'] := by
    rw [hkey, keyOf]
    simp
  refine ⟨hs, ⟨d, b, by rw [hkey]; rfl, hd, hb, hwb, hdl⟩, ?_, ?_⟩
  · rw [hassoc]
    exact List.getLast?_concat _
  · rw [hassoc, List.dropLast_concat]
    rcases hbe : b with _ | ⟨c0, b'⟩
    · exact absurd hbe hb
    · intro hcontra
      have hlast : (d ++ ':' :: (c0 :: b')).getLast? = (c0 :: b').getLast? := by
        rw [List.getLast?_append]
        rw [List.getLast?_cons_cons]
        rcases hg : (c0 :: b').getLast? with _ | ⟨c1⟩
        · simp at hg
        · rfl
      rw [hlast] at hcontra
      have hmem : '-' ∈ c0 :: b' := by
        have hne2 : c0 :: b' ≠ [] := by simp
        rw [List.getLast?_eq_getLast _ hne2] at hcontra
        have := List.getLast_mem hne2
        rwa [Option.some_inj.mp hcontra] at this
      have := hwb '-' (hbe ▸ hmem)
      simp [isWordChar] at this

set_option maxRecDepth 20000 in
theorem C10_witness :
    ("game:ingot-".data, ["copper".data]) ∈
        collect_corpus_variants ["game:ingot-copper".data] ∧
      (["copper".data] : List (List Char)) ≠ [] ∧
      "game:ingot-".data.getLast? = some '-' ∧
      ¬ ("game:ingot-".data.dropLast.getLast? = some '-') := by
  have h := C10_corpus_key_shape ["game:ingot-copper".data] "game:ingot-".data
    ["copper".data] (by decide)
  exact ⟨by decide, h.1, h.2.2.1, h.2.2.2⟩


/-- C8: if the definition files contain the triples `game:ingot-copper`
and `game:ingot-iron` (as matches of the dom- or nodom-rule), and every
match contributing to the key `game:ingot-` has token `copper` or `iron`,
then the corpus maps `game:ingot-` to exactly the set
`{copper, iron}`.  The general insertion property — every matched triple
puts its token into the set keyed by `domain:base-` — is the `mpr`
direction of this statement specialized to each match. -/
theorem C8_corpus_scenario (files : List (List Char))
    (hcopper : ∃ t ∈ files,
      (∃ dbt ∈ domTriples t, PDom dbt "game:ingot-".data "copper".data) ∨
      (∃ bt ∈ nodomPairs t, PNodom bt "game:ingot-".data "copper".data))
    (hiron : ∃ t ∈ files,
      (∃ dbt ∈ domTriples t, PDom dbt "game:ingot-".data "iron".data) ∨
      (∃ bt ∈ nodomPairs t, PNodom bt "game:ingot-".data "iron".data))
    (honly : ∀ t ∈ files,
      (∀ dbt ∈ domTriples t,
        keyOf (dbt.1.map Char.toLower) dbt.2.1 = "game:ingot-".data →
          dbt.2.2 = "copper".data ∨ dbt.2.2 = "iron".data) ∧
      (∀ bt ∈ nodomPairs t,
        keyOf "game".data bt.1 = "game:ingot-".data →
          bt.2 = "copper".data ∨ bt.2 = "iron".data)) :
    ∀ tok, tok ∈ lookupSet (collect_corpus_variants files) "game:ingot-".data ↔
      (tok = "copper".data ∨ tok = "iron".data) := by
  have hintro : ∀ tok : List Char, (∃ t ∈ files,
      (∃ dbt ∈ domTriples t, PDom dbt "game:ingot-".data tok) ∨
      (∃ bt ∈ nodomPairs t, PNodom bt "game:ingot-".data tok)) →
      tok ∈ lookupSet (collect_corpus_variants files) "game:ingot-".data := by
    rintro tok ⟨t, ht, ⟨dbt, hdbt, hkey, htok⟩ | ⟨bt, hbt, hkey, htok⟩⟩
    · obtain ⟨l₀, r, hm⟩ := scanKw_mem hdbt
      obtain ⟨hd, hb, htne, hwd, hwb, hwt⟩ := matchDom_shape
        (l := l₀) (d := dbt.1) (b := dbt.2.1) (t := dbt.2.2) (r := r) hm
      apply collect_corpus_variants_mono ht
      intro acc
      rw [htok, hkey]
      exact collectFileVariants_intro_dom hdbt hb htne acc
    · obtain ⟨l₀, r, hm⟩ := scanKw_mem hbt
      obtain ⟨hb, htne, hwb, hwt⟩ := matchNodom_shape
        (l := l₀) (b := bt.1) (t := bt.2) (r := r) hm
      apply collect_corpus_variants_mono ht
      intro acc
      rw [htok, hkey]
      apply collectFileVariants_intro_nodom hbt ?_ hb htne acc
      rw [Bool.or_eq_false_iff]
      constructor
      · rw [contains_false_iff]
        intro hmem
        have := hwb '*' hmem
        simp [isWordChar] at this
      · rw [contains_false_iff]
        intro hmem
        have := hwt '*' hmem
        simp [isWordChar] at this
  intro tok
  constructor
  · intro h
    obtain ⟨t, ht, hcontrib⟩ := collect_corpus_variants_sound h
    rcases hcontrib with ⟨dbt, hdbt, hkey, htok⟩ | ⟨bt, hbt, hkey, htok⟩
    · rcases (honly t ht).1 dbt hdbt hkey.symm with h1 | h1
      · exact Or.inl (htok ▸ h1)
      · exact Or.inr (htok ▸ h1)
    · rcases (honly t ht).2 bt hbt hkey.symm with h1 | h1
      · exact Or.inl (htok ▸ h1)
      · exact Or.inr (htok ▸ h1)
  · rintro (rfl | rfl)
    · exact hintro _ hcopper
    · exact hintro _ hiron

set_option maxRecDepth 40000 in
theorem C8_witness :
    "copper".data ∈ lookupSet
        (collect_corpus_variants ["game:ingot-copper game:ingot-iron".data])
        "game:ingot-".data ∧
      "iron".data ∈ lookupSet
        (collect_corpus_variants ["game:ingot-copper game:ingot-iron".data])
        "game:ingot-".data ∧
      ¬ ("zinc".data ∈ lookupSet
        (collect_corpus_variants ["game:ingot-copper game:ingot-iron".data])
        "game:ingot-".data) := by
  have h := C8_corpus_scenario ["game:ingot-copper game:ingot-iron".data]
    ⟨"game:ingot-copper game:ingot-iron".data, by decide,
      Or.inl ⟨("game".data, "ingot".data, "copper".data), by decide, by decide, rfl⟩⟩
    ⟨"game:ingot-copper game:ingot-iron".data, by decide,
      Or.inl ⟨("game".data, "ingot".data, "iron".data), by decide, by decide, rfl⟩⟩
    (by
      intro t ht
      have ht2 : t = "game:ingot-copper game:ingot-iron".data := by
        simpa using ht
      subst ht2
      constructor
      · decide
      · decide)
  refine ⟨(h "copper".data).mpr (Or.inl rfl), (h "iron".data).mpr (Or.inr rfl), ?_⟩
  intro hmem
  rcases (h "zinc".data).mp hmem with h1 | h1 <;> simp at h1

end RecipeDesigner
